import Mathlib

/-!
Verification of the circle-die tile renderer core.

The development shallowly embeds the JavaScript source:

* `CircleGrid.generate`  — src/unnamed/part_001 (`CircleGrid.generate`),
  identical loop structure to src/src/models/circle-grid.js;
* `TileManager.buildLODTiles`, `TileManager.applyLOD`,
  `TileManager.calculateLODLevelFromZoom` — src/src/utils/tile-manager.js;
* `QuadTreeNode.insert` / `QuadTreeNode.queryRange` — src/src/core/quadtree.js;
* `Camera.pan` / `Camera.zoomCamera` / `Camera.reset` /
  `Camera.updateMatrix` — src/unnamed/part_004;
* `MathUtils.ortho` / `MathUtils.translation` / `MathUtils.multiplyMatrix`
  — src/unnamed/part_002.

Modelling conventions:

* JavaScript numbers in the grid / quadtree / pyramid / selector are modelled
  as exact rationals (the source only adds, subtracts, multiplies, divides and
  floors there); camera and zoom-to-level code uses `Math.log` and fractional
  `Math.pow`, so it is modelled over the reals.  Floating-point rounding and
  overflow are idealised away.
* `Math.sqrt(a) <= r` in the generator is modelled as `a ≤ r^2`; the two are
  equivalent for `r ≥ 0`, and for `r < 0` the generator's grid is empty so the
  guard is never reached.
* `Math.random()` draws are modelled by oracle functions passed as arguments.
* JavaScript leaf blocks carry no `level` field; the pyramid stores them at
  the finest level `lodLevels - 1 = 5`, which is the level the specification
  assigns to leaves, so the model sets `level := 5` on generated tiles.
  No modelled function ever reads the field; it only names the level of a
  tile in the theorems below.
* Leaf blocks also carry `distance`, `angle` and `isBadData` fields that no
  modelled function reads; they are omitted.  The bad-data draw is kept as
  the oracle deciding the tile colour, as in the source.
-/

/-- A tile record: position, side, RGBA colour (a list, as the JS array),
and the pyramid level the tile belongs to (5 for generator leaves). -/
structure Tile where
  x : ℚ
  y : ℚ
  size : ℚ
  color : List ℚ
  level : ℕ
deriving DecidableEq, Repr

/-! ## Grid generator (src/unnamed/part_001, `CircleGrid`) -/

namespace CircleGrid

/-- `Math.ceil(radius * 2 / blockSize)`: the grid is `gridSize × gridSize`. -/
def gridSize (radius blockSize : ℚ) : ℤ := ⌈radius * 2 / blockSize⌉

/-- `CircleGrid.generate` (src/unnamed/part_001, lines 65–159).  The JS loop
runs `y` from `-gridSize/2` (a half-integer when `gridSize` is odd) up while
`y < gridSize/2` in steps of `1`, with `x` likewise inside; iteration `i`
has `y = -gridSize/2 + i`.  A cell with centre `(blockX, blockY)` emits a
tile iff `sqrt(blockX² + blockY²) ≤ radius`, modelled as
`blockX² + blockY² ≤ radius²`.  The Bernoulli bad-data draw is the oracle
`bad`; a bad tile is red `[1,0,0,1]`, a good one white `[1,1,1,1]`. -/
def cellCoord (radius blockSize : ℚ) (i : ℕ) : ℚ :=
  (-(gridSize radius blockSize : ℚ) / 2 + (i : ℚ)) * blockSize + blockSize / 2

/-- The tile record pushed for grid cell `(ix, iy)` (iteration indices, so
`x = -gridSize/2 + ix` and likewise for `y`): centre at the cell centre,
side `blockSize`, red iff the bad-data draw fired, white otherwise. -/
def cellTile (radius blockSize : ℚ) (bad : ℕ → ℕ → Bool) (iy ix : ℕ) : Tile :=
  { x := cellCoord radius blockSize ix, y := cellCoord radius blockSize iy,
    size := blockSize,
    color := if bad iy ix then [1, 0, 0, 1] else [1, 1, 1, 1],
    level := 5 }

def generate (radius blockSize : ℚ) (bad : ℕ → ℕ → Bool) : List Tile :=
  let g : ℤ := gridSize radius blockSize
  (List.range g.toNat).flatMap fun (iy : ℕ) =>
    (List.range g.toNat).filterMap fun (ix : ℕ) =>
      if cellCoord radius blockSize ix ^ 2 + cellCoord radius blockSize iy ^ 2
          ≤ radius ^ 2 then
        some (cellTile radius blockSize bad iy ix)
      else none

/-- The constructor state (src/unnamed/part_001, lines 30–60): the radius is
stored as given — no clamping — and the block side is
`max(1.0, sqrt(π·radius²/900000))`. -/
structure State where
  radius : ℝ
  blockSize : ℝ

/-- `new CircleGrid(radius)`: stores `radius` unclamped and computes the
block side from the estimated block count `π·radius²`. -/
noncomputable def init (radius : ℝ) : State :=
  { radius := radius
    blockSize := max 1 (Real.sqrt (Real.pi * radius ^ 2 / 900000)) }

end CircleGrid

/-! ## LOD pyramid and visible-tile selector (src/src/utils/tile-manager.js) -/

namespace TileManager

/-- `lodLevels = 6` and `baseTileSize = 1.0`; the tile side at `level` is
`baseTileSize * 2^(lodLevels - 1 - level)`.  The selector only ever uses
levels `≤ 5`, where the ℕ subtraction agrees with the JS arithmetic. -/
def tileSizeAt (level : ℕ) : ℚ := 1 * 2 ^ (5 - level)

/-- Componentwise colour accumulation: `totalColor[i] += tile.color[i]`
for `i < 4`.  Every colour built by the generator or the merger has length
4; `getD _ 0` supplies the (unreached) out-of-range default. -/
def addColor (acc c : List ℚ) : List ℚ :=
  (List.range 4).map fun i => acc.getD i 0 + c.getD i 0

/-- One cell of the merge grid: the member tiles pushed into it, the
accumulated colour, and the merged-tile centre fixed at creation. -/
structure Cell where
  tiles : List Tile
  totalColor : List ℚ
  x : ℚ
  y : ℚ
deriving DecidableEq, Repr

/-- Add one tile to the association list modelling the JS `grid` object
(string keys `gx,gy`, insertion order preserved): push onto an existing
cell, or append a fresh cell with centre `((gx+0.5)s, (gy+0.5)s)`. -/
def updateGrid (s : ℚ) : List ((ℤ × ℤ) × Cell) → (ℤ × ℤ) → Tile →
    List ((ℤ × ℤ) × Cell)
  | [], key, t =>
      [(key, { tiles := [t], totalColor := addColor [0, 0, 0, 0] t.color,
               x := ((key.1 : ℚ) + 1/2) * s, y := ((key.2 : ℚ) + 1/2) * s })]
  | (k, c) :: rest, key, t =>
      if k = key then
        (k, { c with tiles := c.tiles ++ [t],
                     totalColor := addColor c.totalColor t.color }) :: rest
      else (k, c) :: updateGrid s rest key t

/-- Group tiles into the merge grid by cell key `(⌊x/s⌋, ⌊y/s⌋)`
(`buildLODTiles`, grouping loop). -/
def buildGrid (s : ℚ) (tiles : List Tile) : List ((ℤ × ℤ) × Cell) :=
  tiles.foldl (fun grid t => updateGrid s grid (⌊t.x / s⌋, ⌊t.y / s⌋) t) []

/-- The merged tile created for one grid cell: centre and side from the
cell, colour `totalColor.map (· / cell.tiles.length)`, tagged with its
level.  The JS record also stores `originalTiles := cell.tiles`, which the
model keeps available as the cell's member list. -/
def mergeCell (s : ℚ) (level : ℕ) (c : Cell) : Tile :=
  { x := c.x, y := c.y, size := s,
    color := c.totalColor.map fun v => v / (c.tiles.length : ℚ),
    level := level }

/-- One pyramid step: merge the tiles of level `level + 1` into the tiles
of `level` (cells with no tiles are skipped, as in the JS guard). -/
def mergeStep (s : ℚ) (level : ℕ) (tiles : List Tile) : List Tile :=
  (buildGrid s tiles).filterMap fun kc =>
    if kc.2.tiles.length > 0 then some (mergeCell s level kc.2) else none

/-- `tilesByLevel[5 - d]` computed by descending `d` steps from the leaf
level: `levelDown blocks 0` is the leaf copy, and each further step merges
the level above. -/
def levelDown (blocks : List Tile) : ℕ → List Tile
  | 0 => blocks
  | d + 1 => mergeStep (tileSizeAt (5 - (d + 1))) (5 - (d + 1))
      (levelDown blocks d)

/-- `this.tilesByLevel[level]` after `buildLODTiles` ran on `blocks`. -/
def tilesByLevel (blocks : List Tile) (level : ℕ) : List Tile :=
  levelDown blocks (5 - level)

/-- The `tilesByLevel` array built by `buildLODTiles`: entry `level` holds
the tiles of that LOD level, entry 5 the leaf blocks. -/
def buildLODTiles (blocks : List Tile) : List (List Tile) :=
  (List.range 6).map (tilesByLevel blocks)

/-- `tilesByLevel[level].find(t => ⌊t.x/s⌋ = gx && ⌊t.y/s⌋ = gy)` with
`s` the side at `level`. -/
def findLOD (tbl : List (List Tile)) (level : ℕ) (gx gy : ℤ) : Option Tile :=
  (tbl.getD level []).find? fun t =>
    decide (⌊t.x / tileSizeAt level⌋ = gx) && decide (⌊t.y / tileSizeAt level⌋ = gy)

/-- Inclusive integer range `[a..b]` as iterated by the JS
`for (x = a; x <= b; x++)` loops. -/
def rangeIncl (a b : ℤ) : List ℤ :=
  (List.range (b + 1 - a).toNat).map fun i => a + (i : ℤ)

/-- All finer tiles found at one candidate level of the upward search:
sub-cell bounds `⌊gx·s/s'⌋ .. ⌊(gx+1)·s/s'⌋` (and likewise for `y`), every
hit pushed. -/
def levelFound (tbl : List (List Tile)) (s : ℚ) (gx gy : ℤ) (level : ℕ) :
    List Tile :=
  let hs := tileSizeAt level
  let xmin := ⌊(gx : ℚ) * s / hs⌋
  let xmax := ⌊((gx : ℚ) + 1) * s / hs⌋
  let ymin := ⌊(gy : ℚ) * s / hs⌋
  let ymax := ⌊((gy : ℚ) + 1) * s / hs⌋
  (rangeIncl xmin xmax).flatMap fun xv =>
    (rangeIncl ymin ymax).filterMap fun yv => findLOD tbl level xv yv

/-- The upward search over the given list of levels: stop at the first
level where anything was found (`foundHigherLOD` breaks the loop). -/
def searchLevels (tbl : List (List Tile)) (s : ℚ) (gx gy : ℤ) :
    List ℕ → List Tile
  | [] => []
  | l :: ls =>
      let f := levelFound tbl s gx gy l
      if f ≠ [] then f else searchLevels tbl s gx gy ls

/-- The selector's running state: the `processedGrid` key set and the
emitted tiles in order. -/
structure LODState where
  processed : List (ℕ × ℤ × ℤ)
  result : List Tile

/-- One iteration of the `applyLOD` candidate loop
(src/src/utils/tile-manager.js, lines 230–345): compute the target level
`max(0, baseLevel - drop)` (ℕ subtraction), the cell key, skip if already
processed, otherwise emit the level's merged tile, or the finer tiles
found by the upward search, or the candidate itself. -/
def applyLODStep (tbl : List (List Tile)) (baseLevel : ℕ) (drop : Tile → ℕ)
    (st : LODState) (tile : Tile) : LODState :=
  let targetLevel := baseLevel - drop tile
  let s := tileSizeAt targetLevel
  let gx := ⌊tile.x / s⌋
  let gy := ⌊tile.y / s⌋
  let key : ℕ × ℤ × ℤ := (targetLevel, gx, gy)
  if key ∈ st.processed then st
  else
    let processed := key :: st.processed
    match findLOD tbl targetLevel gx gy with
    | some lodTile => { processed := processed, result := st.result ++ [lodTile] }
    | none =>
        if targetLevel < 5 then
          let found := searchLevels tbl s gx gy
            ((List.range (5 - targetLevel)).map fun i => targetLevel + 1 + i)
          if found ≠ [] then { processed := processed, result := st.result ++ found }
          else { processed := processed, result := st.result ++ [tile] }
        else { processed := processed, result := st.result ++ [tile] }

/-- `applyLOD(tiles, baseLevel)`.  The per-candidate distance-based drop
`⌊2.5·min(1, d/(0.8·viewportSize))^1.5⌋` mixes `Math.sqrt` and a
fractional `Math.pow`, so it is abstracted as the oracle `drop`; the
theorems below hold for every `drop`, hence for the source's. -/
def applyLOD (tbl : List (List Tile)) (drop : Tile → ℕ) (baseLevel : ℕ)
    (tiles : List Tile) : List Tile :=
  (tiles.foldl (applyLODStep tbl baseLevel drop)
    { processed := [], result := [] }).result

/-- The deduplication key of an emitted tile: its own level and its cell
at that level's side. -/
def tileKey (t : Tile) : ℕ × ℤ × ℤ :=
  (t.level, ⌊t.x / tileSizeAt t.level⌋, ⌊t.y / tileSizeAt t.level⌋)

/-- Total member count of a merge grid: the sum over its cells of the
number of tiles grouped into the cell (each merged tile's
`originalTiles.length`). -/
def sumMembers (g : List ((ℤ × ℤ) × Cell)) : ℕ :=
  (g.map fun kc => kc.2.tiles.length).sum

/-- Colour channel `i` of a tile (`tile.color[i]`). -/
def chan (i : ℕ) (t : Tile) : ℚ := t.color.getD i 0

/-- Componentwise colour sum of a list of tiles, exactly as the grouping
loop accumulates `totalColor`. -/
def sumColors (ts : List Tile) : List ℚ :=
  ts.foldl (fun acc t => addColor acc t.color) [0, 0, 0, 0]

end TileManager

/-! ## Quadtree (src/src/core/quadtree.js) -/

/-- A query rectangle `{x, y, width, height}` (centre-based). -/
structure Rect where
  x : ℚ
  y : ℚ
  w : ℚ
  h : ℚ
deriving DecidableEq, Repr

/-- A quadtree node: bounds centre `(bx, cy)`, extents `(bw, bh)`, depth
parameters, the item bucket, and the list of children (`[]`, or the four
quadrants in the JS order top-left, top-right, bottom-left, bottom-right). -/
inductive QNode where
  | node (bx cy bw bh : ℚ) (depth maxDepth maxItems : ℕ)
      (items : List Tile) (children : List QNode)
deriving Repr

namespace QNode

def items : QNode → List Tile
  | node _ _ _ _ _ _ _ it _ => it

def children : QNode → List QNode
  | node _ _ _ _ _ _ _ _ cs => cs

def bx : QNode → ℚ
  | node b _ _ _ _ _ _ _ _ => b

def cy : QNode → ℚ
  | node _ c _ _ _ _ _ _ _ => c

def bw : QNode → ℚ
  | node _ _ w _ _ _ _ _ _ => w

def bh : QNode → ℚ
  | node _ _ _ h _ _ _ _ _ => h

/-- `QuadTreeNode.contains(x, y)`: half-open membership in the node's
bounds. -/
def contains (n : QNode) (x y : ℚ) : Bool :=
  decide (n.bx - n.bw / 2 ≤ x) && decide (x < n.bx + n.bw / 2) &&
  decide (n.cy - n.bh / 2 ≤ y) && decide (y < n.cy + n.bh / 2)

/-- `QuadTreeNode.intersects(rect)`: closed axis-aligned overlap of the
node's bounds with the query rectangle. -/
def intersects (n : QNode) (r : Rect) : Bool :=
  let left := n.bx - n.bw / 2
  let right := n.bx + n.bw / 2
  let top := n.cy + n.bh / 2
  let bottom := n.cy - n.bh / 2
  let rectLeft := r.x - r.w / 2
  let rectRight := r.x + r.w / 2
  let rectTop := r.y + r.h / 2
  let rectBottom := r.y - r.h / 2
  !(decide (rectLeft > right) || decide (rectRight < left) ||
    decide (rectTop < bottom) || decide (rectBottom > top))

/-- `itemIntersectsRange(item, range)`: closed overlap of the tile's
bounding square (centre, side `size`) with the query rectangle. -/
def itemIntersectsRange (t : Tile) (r : Rect) : Bool :=
  let halfSize := t.size / 2
  let itemLeft := t.x - halfSize
  let itemRight := t.x + halfSize
  let itemTop := t.y + halfSize
  let itemBottom := t.y - halfSize
  let rangeLeft := r.x - r.w / 2
  let rangeRight := r.x + r.w / 2
  let rangeTop := r.y + r.h / 2
  let rangeBottom := r.y - r.h / 2
  !(decide (itemLeft > rangeRight) || decide (itemRight < rangeLeft) ||
    decide (itemTop < rangeBottom) || decide (itemBottom > rangeTop))

/-- The four fresh children created by `subdivide()`: half extents, centres
offset by a quarter, depth one deeper. -/
def mkChildren (bx cy bw bh : ℚ) (depth maxDepth maxItems : ℕ) : List QNode :=
  [node (bx - bw / 4) (cy + bh / 4) (bw / 2) (bh / 2) (depth + 1) maxDepth maxItems [] [],
   node (bx + bw / 4) (cy + bh / 4) (bw / 2) (bh / 2) (depth + 1) maxDepth maxItems [] [],
   node (bx - bw / 4) (cy - bh / 4) (bw / 2) (bh / 2) (depth + 1) maxDepth maxItems [] [],
   node (bx + bw / 4) (cy - bh / 4) (bw / 2) (bh / 2) (depth + 1) maxDepth maxItems [] []]

/-- `insertItemIntoChildren`: insert into the first child whose bounds
contain the tile's centre, via the given child-insertion function; `none`
when no child contains it. -/
def insChildren (ins : QNode → Tile → QNode) :
    List QNode → Tile → Option (List QNode)
  | [], _ => none
  | c :: cs, t =>
      if c.contains t.x t.y then some (ins c t :: cs)
      else match insChildren ins cs t with
           | some cs2 => some (c :: cs2)
           | none => none

/-- `QuadTreeNode.insert(item)`, with explicit recursion fuel.  Each
recursive call descends one depth level, and a node at `depth = maxDepth`
never subdivides, so starting with fuel `maxDepth + 2` at the root the
fuel-0 fallback (which just pushes into the bucket) is never reached.
Subdivision redistributes the bucket through `insertItemIntoChildren`,
whose `false` return the JS ignores — an item contained in no child is
dropped, which the `foldl` mirrors. -/
def insert : ℕ → QNode → Tile → QNode
  | 0, node bx cy bw bh d mD mI items cs, t =>
      node bx cy bw bh d mD mI (items ++ [t]) cs
  | fuel + 1, node bx cy bw bh d mD mI items cs, t =>
      if !cs.isEmpty then
        match insChildren (insert fuel) cs t with
        | some cs2 => node bx cy bw bh d mD mI items cs2
        | none => node bx cy bw bh d mD mI (items ++ [t]) cs
      else
        let items2 := items ++ [t]
        if items2.length > mI ∧ d < mD then
          let cs0 := mkChildren bx cy bw bh d mD mI
          let cs2 := items2.foldl (fun acc it =>
            match insChildren (insert fuel) acc it with
            | some acc2 => acc2
            | none => acc) cs0
          node bx cy bw bh d mD mI [] cs2
        else node bx cy bw bh d mD mI items2 cs

/-- `QuadTreeNode.queryRange(range)`: prune by node bounds, collect bucket
items whose square meets the rectangle, recurse into every child. -/
def queryRange : QNode → Rect → List Tile
  | node bx cy bw bh d mD mI items cs, r =>
      if (node bx cy bw bh d mD mI items cs).intersects r then
        items.filter (fun t => itemIntersectsRange t r) ++
        (cs.attach.map fun c => queryRange c.val r).flatten
      else []
decreasing_by
  have := List.sizeOf_lt_of_mem c.property
  simp only [QNode.node.sizeOf_spec]
  omega

/-- Every tile stored anywhere in the subtree (bucket order, then children
in order); `queryRange` only ever reports these. -/
def allItems : QNode → List Tile
  | node _ _ _ _ _ _ _ items cs =>
      items ++ (cs.attach.map fun c => allItems c.val).flatten
decreasing_by
  have := List.sizeOf_lt_of_mem c.property
  simp only [QNode.node.sizeOf_spec]
  omega

/-- The bounds fields of a node, which every insertion preserves. -/
def boundsOf (n : QNode) : ℚ × ℚ × ℚ × ℚ := (n.bx, n.cy, n.bw, n.bh)

end QNode

/-- A tile is stored along a centre-containing path: it sits in the bucket
of a node whose (half-open) bounds contain its centre, or in a child
subtree likewise, with every node on the path containing the centre. -/
inductive Stored : QNode → Tile → Prop where
  | here {n : QNode} {t : Tile} :
      t ∈ n.items → n.contains t.x t.y = true → Stored n t
  | child {n c : QNode} {t : Tile} :
      c ∈ n.children → Stored c t → n.contains t.x t.y = true → Stored n t

/-- A tile is stored somewhere in the subtree (no containment demanded);
`queryRange` reports only such tiles. -/
inductive MemT : QNode → Tile → Prop where
  | here {n : QNode} {t : Tile} : t ∈ n.items → MemT n t
  | child {n c : QNode} {t : Tile} : c ∈ n.children → MemT c t → MemT n t

/-- `new QuadTree(width, height)` followed by `insertAll(tiles)`:
root centred at the origin, `maxDepth = 8`, `maxItems = 10`; the insert
fuel `10 = maxDepth + 2` is enough for every path (see `QNode.insert`). -/
def QuadTree.build (w h : ℚ) (tiles : List Tile) : QNode :=
  tiles.foldl (fun n t => QNode.insert 10 n t) (QNode.node 0 0 w h 0 8 10 [] [])

/-! ## TileManager.initialize (src/src/utils/tile-manager.js, lines 40–70) -/

namespace TileManager

/-- The sampling pass of `initialize`: keep all blocks when there are at
most 300000, otherwise keep block `i` iff its uniform draw is below
`300000 / blocks.length` (`Math.random()` modelled by the oracle
`draws`). -/
def sampleBlocks (draws : ℕ → ℚ) (blocks : List Tile) : List Tile :=
  if blocks.length ≤ 300000 then blocks
  else blocks.enum.filterMap fun p =>
    if draws p.1 < (300000 : ℚ) / (blocks.length : ℚ) then some p.2 else none

/-- The quadtree built by `initialize`: side `radius * 2.5`, filled with
the (possibly sampled) blocks. -/
def initQuadTree (radius : ℚ) (draws : ℕ → ℚ) (blocks : List Tile) : QNode :=
  QuadTree.build (radius * 2.5) (radius * 2.5) (sampleBlocks draws blocks)

end TileManager

/-! ## Matrix math (src/unnamed/part_002, `MathUtils`) and camera
(src/unnamed/part_004, `Camera`).

JavaScript numbers here are `Option ℝ`: `some v` is a finite value and
`none` any non-finite one (`NaN`, `±Infinity`); `isFinite` is `isSome`.
Arithmetic on finite reals stays finite in the model (overflow to
`Infinity` is idealised away); division by zero is non-finite. -/

noncomputable section

/-- Finite-value addition; any non-finite operand poisons the result. -/
def jadd : Option ℝ → Option ℝ → Option ℝ
  | some a, some b => some (a + b)
  | _, _ => none

/-- Finite-value multiplication; any non-finite operand poisons the
result (this loses `Infinity * 2 = Infinity`, which is equally
non-finite, so finiteness claims are unaffected). -/
def jmul : Option ℝ → Option ℝ → Option ℝ
  | some a, some b => some (a * b)
  | _, _ => none

namespace MathUtils

/-- `MathUtils.identity()`. -/
def identityM : List (Option ℝ) :=
  [some 1, some 0, some 0, some 0,
   some 0, some 1, some 0, some 0,
   some 0, some 0, some 1, some 0,
   some 0, some 0, some 0, some 1]

/-- `MathUtils.ortho(left, right, bottom, top, near, far)`: identity when
any input is non-finite or a divisor range is below `1e-4`; otherwise the
orthographic matrix (the divisors are then nonzero, so every entry is a
finite real). -/
def ortho (l r b t n f : Option ℝ) : List (Option ℝ) :=
  match l, r, b, t, n, f with
  | some l, some r, some b, some t, some n, some f =>
      if |l - r| < 1 / 10000 ∨ |b - t| < 1 / 10000 ∨ |n - f| < 1 / 10000 then
        identityM
      else
        let lr := 1 / (l - r)
        let bt := 1 / (b - t)
        let nf := 1 / (n - f)
        [some (-2 * lr), some 0, some 0, some 0,
         some 0, some (-2 * bt), some 0, some 0,
         some 0, some 0, some (2 * nf), some 0,
         some ((l + r) * lr), some ((t + b) * bt), some ((f + n) * nf), some 1]
  | _, _, _, _, _, _ => identityM

/-- `MathUtils.translation(tx, ty, tz)`: identity when any input is
non-finite; otherwise the translation matrix with the offsets clamped to
`±1e6`. -/
def translation (tx ty tz : Option ℝ) : List (Option ℝ) :=
  match tx, ty, tz with
  | some tx, some ty, some tz =>
      let bTx := max (-1000000) (min 1000000 tx)
      let bTy := max (-1000000) (min 1000000 ty)
      let bTz := max (-1000000) (min 1000000 tz)
      [some 1, some 0, some 0, some 0,
       some 0, some 1, some 0, some 0,
       some 0, some 0, some 1, some 0,
       some bTx, some bTy, some bTz, some 1]
  | _, _, _ => identityM

/-- One entry of the 4×4 product, associated as the JS source writes it. -/
def dot4 (p q r s u v w x : Option ℝ) : Option ℝ :=
  jadd (jadd (jadd (jmul p u) (jmul q v)) (jmul r w)) (jmul s x)

/-- `MathUtils.multiplyMatrix(a, b)`: identity unless both inputs are
16-entry matrices of finite values; identity again if the product has a
non-finite entry (unreachable once both inputs are finite). -/
def multiplyMatrix (a b : List (Option ℝ)) : List (Option ℝ) :=
  match a, b with
  | [a00, a01, a02, a03, a10, a11, a12, a13,
     a20, a21, a22, a23, a30, a31, a32, a33],
    [b00, b01, b02, b03, b10, b11, b12, b13,
     b20, b21, b22, b23, b30, b31, b32, b33] =>
      if ([a00, a01, a02, a03, a10, a11, a12, a13,
           a20, a21, a22, a23, a30, a31, a32, a33,
           b00, b01, b02, b03, b10, b11, b12, b13,
           b20, b21, b22, b23, b30, b31, b32, b33].any fun v => v.isNone) then
        identityM
      else if ([dot4 a00 a01 a02 a03 b00 b10 b20 b30,
           dot4 a00 a01 a02 a03 b01 b11 b21 b31,
           dot4 a00 a01 a02 a03 b02 b12 b22 b32,
           dot4 a00 a01 a02 a03 b03 b13 b23 b33,
           dot4 a10 a11 a12 a13 b00 b10 b20 b30,
           dot4 a10 a11 a12 a13 b01 b11 b21 b31,
           dot4 a10 a11 a12 a13 b02 b12 b22 b32,
           dot4 a10 a11 a12 a13 b03 b13 b23 b33,
           dot4 a20 a21 a22 a23 b00 b10 b20 b30,
           dot4 a20 a21 a22 a23 b01 b11 b21 b31,
           dot4 a20 a21 a22 a23 b02 b12 b22 b32,
           dot4 a20 a21 a22 a23 b03 b13 b23 b33,
           dot4 a30 a31 a32 a33 b00 b10 b20 b30,
           dot4 a30 a31 a32 a33 b01 b11 b21 b31,
           dot4 a30 a31 a32 a33 b02 b12 b22 b32,
           dot4 a30 a31 a32 a33 b03 b13 b23 b33].any fun v => v.isNone) then
        identityM
      else
          [dot4 a00 a01 a02 a03 b00 b10 b20 b30,
           dot4 a00 a01 a02 a03 b01 b11 b21 b31,
           dot4 a00 a01 a02 a03 b02 b12 b22 b32,
           dot4 a00 a01 a02 a03 b03 b13 b23 b33,
           dot4 a10 a11 a12 a13 b00 b10 b20 b30,
           dot4 a10 a11 a12 a13 b01 b11 b21 b31,
           dot4 a10 a11 a12 a13 b02 b12 b22 b32,
           dot4 a10 a11 a12 a13 b03 b13 b23 b33,
           dot4 a20 a21 a22 a23 b00 b10 b20 b30,
           dot4 a20 a21 a22 a23 b01 b11 b21 b31,
           dot4 a20 a21 a22 a23 b02 b12 b22 b32,
           dot4 a20 a21 a22 a23 b03 b13 b23 b33,
           dot4 a30 a31 a32 a33 b00 b10 b20 b30,
           dot4 a30 a31 a32 a33 b01 b11 b21 b31,
           dot4 a30 a31 a32 a33 b02 b12 b22 b32,
           dot4 a30 a31 a32 a33 b03 b13 b23 b33]
  | _, _ => identityM

end MathUtils

/-- The camera state (src/unnamed/part_004): position, smoothing target,
zoom, current matrix, last known-good matrix, and the initial state saved
for `reset()`.  `panSpeed = 0.25`, `panLimit = 10000`, smoothing enabled
with factor `0.2`, `minZoom = 0.1`, `maxZoom = 10`; the canvas is the
fixed `800 × 600` drawing surface, giving aspect `4/3`. -/
structure Camera where
  posX : ℝ
  posY : ℝ
  targetX : ℝ
  targetY : ℝ
  zoom : ℝ
  matrix : List (Option ℝ)
  lastGood : Option (List (Option ℝ))
  initX : ℝ
  initY : ℝ
  initZoom : ℝ

namespace Camera

/-- `Camera.updateMatrix()`: validate the zoom (a non-positive zoom is
reset to `minZoom`; non-finiteness cannot arise for the real-valued state),
build the orthographic and translation matrices, multiply, and either
store the result (also as `lastGoodMatrix`) or, when it contains a
non-finite entry, restore the last good matrix (identity if none) and
report failure. -/
def zoomChecked (c : Camera) : ℝ := if c.zoom ≤ 0 then 0.1 else c.zoom

/-- The orthographic half of the matrix: `height = 1000 / zoom`,
`width = height * aspect` for the `800 / 600` canvas aspect, bounds
`±width/2` and `±height/2`, near `-1`, far `1`. -/
def projMatrix (c : Camera) : List (Option ℝ) :=
  MathUtils.ortho (some (-(1000 / c.zoomChecked * (800 / 600)) / 2))
    (some (1000 / c.zoomChecked * (800 / 600) / 2))
    (some (-(1000 / c.zoomChecked) / 2))
    (some (1000 / c.zoomChecked / 2)) (some (-1)) (some 1)

/-- The view half: translation by the negated position. -/
def viewMatrix (c : Camera) : List (Option ℝ) :=
  MathUtils.translation (some (-c.posX)) (some (-c.posY)) (some 0)

/-- `projectionMatrix * translationMatrix`. -/
def resMatrix (c : Camera) : List (Option ℝ) :=
  MathUtils.multiplyMatrix c.projMatrix c.viewMatrix

def updateMatrix (c : Camera) : Camera × Bool :=
  if c.resMatrix.any (fun v => v.isNone) then
    ({ c with zoom := c.zoomChecked,
              matrix := match c.lastGood with
                        | some m => m
                        | none => MathUtils.identityM }, false)
  else
    ({ c with zoom := c.zoomChecked,
              matrix := c.resMatrix,
              lastGood := some c.resMatrix }, true)

/-- `Camera.zoomCamera(delta)`: ignore non-finite deltas; clamp the step
to `±0.5` and the zoom to `[0.1, 10]`; on a failed matrix update restore
the previous zoom. -/
def zoomCamera (c : Camera) (delta : Option ℝ) : Camera :=
  match delta with
  | none => c
  | some d =>
      let bounded := max (-(1/2)) (min (1/2) d)
      let oldZoom := c.zoom
      let c1 := { c with zoom := max (1/10) (min 10 (c.zoom + bounded)) }
      let p := updateMatrix c1
      if p.2 then p.1 else { p.1 with zoom := oldZoom }

/-- `Camera.pan(deltaX, deltaY)`: ignore non-finite deltas; scale by
`panSpeed` and by `log(max(0.5, zoom)) * 0.5 / max(0.1, zoom)`; smoothing
moves the position a fifth of the way toward the updated target; both are
clamped to `±panLimit`.  (The JS `isNaN` guard on the clamped position
cannot fire for real-valued state.)  On a failed matrix update both
position and target roll back to the previous position. -/
def pan (c : Camera) (dx dy : Option ℝ) : Camera :=
  match dx, dy with
  | some dx, some dy =>
      let dx1 := dx * (1/4)
      let dy1 := dy * (1/4)
      let zoomFactor := Real.log (max (1/2) c.zoom) * (1/2)
      let factor := zoomFactor / max (1/10) c.zoom
      let tx := c.targetX - dx1 * factor
      let ty := c.targetY + dy1 * factor
      let px := c.posX + (tx - c.posX) * (1/5)
      let py := c.posY + (ty - c.posY) * (1/5)
      let c1 := { c with
        posX := max (-10000) (min 10000 px),
        posY := max (-10000) (min 10000 py),
        targetX := max (-10000) (min 10000 tx),
        targetY := max (-10000) (min 10000 ty) }
      let p := updateMatrix c1
      if p.2 then p.1
      else { p.1 with posX := c.posX, posY := c.posY,
                      targetX := c.posX, targetY := c.posY }
  | _, _ => c

/-- `Camera.reset()`: restore the saved initial position (also as the
smoothing target) and zoom, then update the matrix. -/
def reset (c : Camera) : Camera :=
  (updateMatrix { c with posX := c.initX, posY := c.initY,
                         targetX := c.initX, targetY := c.initY,
                         zoom := c.initZoom }).1

/-- `new Camera(canvas)`: identity matrix, then a first `updateMatrix`
(which stores the first good matrix), with initial state (0, 0, zoom 1). -/
def init : Camera :=
  (updateMatrix
    { posX := 0, posY := 0, targetX := 0, targetY := 0, zoom := 1,
      matrix := MathUtils.identityM, lastGood := none,
      initX := 0, initY := 0, initZoom := 1 }).1

end Camera

/-- One camera input event, with possibly non-finite payloads. -/
inductive CamOp where
  | pan (dx dy : Option ℝ)
  | zoomStep (delta : Option ℝ)
  | reset

/-- Run a sequence of input events from the freshly constructed camera. -/
def Camera.run (ops : List CamOp) : Camera :=
  ops.foldl
    (fun c op =>
      match op with
      | CamOp.pan dx dy => c.pan dx dy
      | CamOp.zoomStep d => c.zoomCamera d
      | CamOp.reset => c.reset)
    Camera.init

/-- `TileManager.calculateLODLevelFromZoom` (src/src/utils/tile-manager.js,
lines 205–222): normalise the zoom over `[minZoom, maxZoom] = [0.1, 10]`,
apply `Math.pow(·, 0.8)`, scale by `lodLevels - 1 = 5`, floor, and clamp
above by 5 (there is no clamp below in the source). -/
def TileManager.calculateLODLevelFromZoom (z : ℝ) : ℤ :=
  min 5 ⌊((z - 1/10) / (10 - 1/10)) ^ (0.8 : ℝ) * 5⌋

/-- Modelled from the spec (§4.4 step 1), for comparison with
`calculateLODLevelFromZoom`: `u = ((z - z_min)/(z_max - z_min))^0.8`
clamped to `[0, 1]`, then `⌊u·(L-1)⌋` clamped to `[0, L-1]`. -/
def specBaseLevel (z : ℝ) : ℤ :=
  max 0 (min 5 ⌊min 1 (max 0 (((z - 1/10) / (10 - 1/10)) ^ (0.8 : ℝ))) * 5⌋)

end

/-! # Theorems -/

/-- Membership in the generated grid comes from an in-disk cell. -/
theorem CircleGrid.mem_generate {radius blockSize : ℚ} {bad : ℕ → ℕ → Bool}
    {t : Tile} (ht : t ∈ CircleGrid.generate radius blockSize bad) :
    ∃ iy ix : ℕ, iy < (CircleGrid.gridSize radius blockSize).toNat ∧
      ix < (CircleGrid.gridSize radius blockSize).toNat ∧
      CircleGrid.cellCoord radius blockSize ix ^ 2 +
        CircleGrid.cellCoord radius blockSize iy ^ 2 ≤ radius ^ 2 ∧
      t = CircleGrid.cellTile radius blockSize bad iy ix := by
  simp only [CircleGrid.generate, List.mem_flatMap, List.mem_filterMap,
    List.mem_range] at ht
  obtain ⟨iy, hiy, ix, hix, hsome⟩ := ht
  by_cases hc : CircleGrid.cellCoord radius blockSize ix ^ 2 +
      CircleGrid.cellCoord radius blockSize iy ^ 2 ≤ radius ^ 2
  · rw [if_pos hc] at hsome
    exact ⟨iy, ix, hiy, hix, hc, (Option.some_inj.mp hsome).symm⟩
  · rw [if_neg hc] at hsome
    cases hsome

/-- C8 — every tile emitted by `CircleGrid.generate` lies in the disk:
(1) for every generated tile, `x² + y² ≤ radius²`, hence (for a
nonnegative radius) `|position| ≤ radius`; (2) conversely, every grid
cell whose centre satisfies the disk inequality has its tile emitted. -/
theorem generate_disk_containment :
    (∀ (radius blockSize : ℚ) (bad : ℕ → ℕ → Bool) (t : Tile),
      t ∈ CircleGrid.generate radius blockSize bad →
      t.x ^ 2 + t.y ^ 2 ≤ radius ^ 2 ∧
        (0 ≤ radius →
          Real.sqrt ((t.x : ℝ) ^ 2 + (t.y : ℝ) ^ 2) ≤ (radius : ℝ))) ∧
    (∀ (radius blockSize : ℚ) (bad : ℕ → ℕ → Bool) (iy ix : ℕ),
      iy < (CircleGrid.gridSize radius blockSize).toNat →
      ix < (CircleGrid.gridSize radius blockSize).toNat →
      CircleGrid.cellCoord radius blockSize ix ^ 2 +
        CircleGrid.cellCoord radius blockSize iy ^ 2 ≤ radius ^ 2 →
      CircleGrid.cellTile radius blockSize bad iy ix ∈
        CircleGrid.generate radius blockSize bad) := by
  constructor
  · intro radius blockSize bad t ht
    obtain ⟨iy, ix, _, _, hc, rfl⟩ := CircleGrid.mem_generate ht
    refine ⟨hc, fun hr => ?_⟩
    have hcast : ((CircleGrid.cellTile radius blockSize bad iy ix).x : ℝ) ^ 2 +
        ((CircleGrid.cellTile radius blockSize bad iy ix).y : ℝ) ^ 2 ≤
        ((radius : ℝ)) ^ 2 := by
      exact_mod_cast hc
    calc Real.sqrt (((CircleGrid.cellTile radius blockSize bad iy ix).x : ℝ) ^ 2 +
          ((CircleGrid.cellTile radius blockSize bad iy ix).y : ℝ) ^ 2)
        ≤ Real.sqrt ((radius : ℝ) ^ 2) := Real.sqrt_le_sqrt hcast
      _ = (radius : ℝ) := Real.sqrt_sq (by exact_mod_cast hr)
  · intro radius blockSize bad iy ix hiy hix hc
    simp only [CircleGrid.generate, List.mem_flatMap, List.mem_filterMap,
      List.mem_range]
    exact ⟨iy, hiy, ix, hix, by rw [if_pos hc]⟩

/-- C8 witness: with radius 1 and block side 1 the cell `(0,0)` tile at
`(-1/2, -1/2)` is generated and satisfies the disk bound. -/
theorem generate_disk_containment_sample :
    (⟨-(1/2), -(1/2), 1, [1, 1, 1, 1], 5⟩ : Tile).x ^ 2 +
      (⟨-(1/2), -(1/2), 1, [1, 1, 1, 1], 5⟩ : Tile).y ^ 2 ≤ (1 : ℚ) ^ 2 :=
  (generate_disk_containment.1 1 1 (fun _ _ => false) _
    (by with_unfolding_all decide)).1

/-- C9 counterexample — the constructor does not clamp the radius: at
input radius 0 it stores radius 0 and block side 1, and the generator
then emits nothing, while the radius-1 disk (same block side 1) is
nonempty.  So for `R = 0 ≤ 0` the generator does not behave as if
`R := max(R, 1)`. -/
theorem no_radius_clamp_cex :
    (CircleGrid.init 0).radius = 0 ∧ (CircleGrid.init 0).blockSize = 1 ∧
    (CircleGrid.init 1).blockSize = 1 ∧
    CircleGrid.generate 0 1 (fun _ _ => false) = [] ∧
    CircleGrid.generate 1 1 (fun _ _ => false) ≠ [] := by
  refine ⟨rfl, ?_, ?_, by with_unfolding_all decide, by with_unfolding_all decide⟩
  · show max 1 (Real.sqrt (Real.pi * (0 : ℝ) ^ 2 / 900000)) = 1
    rw [show Real.pi * (0 : ℝ) ^ 2 / 900000 = 0 by ring, Real.sqrt_zero]
    norm_num
  · show max 1 (Real.sqrt (Real.pi * (1 : ℝ) ^ 2 / 900000)) = 1
    have hle : Real.pi * (1 : ℝ) ^ 2 / 900000 ≤ 1 := by
      nlinarith [Real.pi_le_four]
    exact max_eq_left (Real.sqrt_le_one.mpr hle)

/-- C9 amended — invalid configuration surfaces no error, but the radius
is *not* clamped: the constructor stores the given radius unchanged, and
for any radius `≤ 0` the iteration grid has nonpositive size, so the
generator returns the empty tile set (not the radius-1 disk). -/
theorem generate_nonpositive_radius_empty (radius blockSize : ℚ)
    (bad : ℕ → ℕ → Bool) (hR : radius ≤ 0) (hs : 0 < blockSize) :
    CircleGrid.gridSize radius blockSize ≤ 0 ∧
    CircleGrid.generate radius blockSize bad = [] ∧
    ∀ r : ℝ, (CircleGrid.init r).radius = r := by
  have hg : CircleGrid.gridSize radius blockSize ≤ 0 := by
    rw [CircleGrid.gridSize]
    refine Int.ceil_le.mpr ?_
    push_cast
    apply div_nonpos_of_nonpos_of_nonneg
    · linarith
    · exact le_of_lt hs
  refine ⟨hg, ?_, fun _ => rfl⟩
  rw [CircleGrid.generate]
  rw [Int.toNat_of_nonpos hg]
  rfl

/-- C9 witness: at radius `-1` (with block side 1) the generator emits
nothing. -/
theorem generate_nonpositive_radius_empty_sample :
    CircleGrid.generate (-1) 1 (fun _ _ => false) = [] :=
  (generate_nonpositive_radius_empty (-1) 1 (fun _ _ => false)
    (by norm_num) (by norm_num)).2.1

namespace TileManager

/-- Pushing one tile into the merge grid grows the total member count by
exactly one. -/
theorem sumMembers_updateGrid (s : ℚ) (g : List ((ℤ × ℤ) × Cell))
    (key : ℤ × ℤ) (t : Tile) :
    sumMembers (updateGrid s g key t) = sumMembers g + 1 := by
  induction g with
  | nil => simp [updateGrid, sumMembers]
  | cons kc rest ih =>
      obtain ⟨k, c⟩ := kc
      by_cases hk : k = key
      · simp [updateGrid, hk, sumMembers, List.length_append]
        omega
      · simp only [updateGrid, if_neg hk, sumMembers, List.map_cons,
          List.sum_cons] at ih ⊢
        omega

/-- Folding tiles into the merge grid keeps the member count equal to the
number of tiles folded in. -/
theorem sumMembers_buildGrid_aux (s : ℚ) (ts : List Tile)
    (g : List ((ℤ × ℤ) × Cell)) :
    sumMembers (ts.foldl
      (fun grid t => updateGrid s grid (⌊t.x / s⌋, ⌊t.y / s⌋) t) g) =
    sumMembers g + ts.length := by
  induction ts generalizing g with
  | nil => simp
  | cons t rest ih =>
      simp only [List.foldl_cons, List.length_cons]
      rw [ih, sumMembers_updateGrid]
      omega

/-- Every tile grouped is counted once: the member counts over the merge
grid's cells sum to the input length. -/
theorem sumMembers_buildGrid (s : ℚ) (ts : List Tile) :
    sumMembers (buildGrid s ts) = ts.length := by
  rw [buildGrid, sumMembers_buildGrid_aux]
  simp [sumMembers]

/-- Every cell of the merge grid holds at least one tile. -/
theorem buildGrid_cell_pos (s : ℚ) (ts : List Tile) :
    ∀ kc ∈ buildGrid s ts, 0 < kc.2.tiles.length := by
  have aux : ∀ (ts : List Tile) (g : List ((ℤ × ℤ) × Cell)),
      (∀ kc ∈ g, 0 < kc.2.tiles.length) →
      ∀ kc ∈ ts.foldl
        (fun grid t => updateGrid s grid (⌊t.x / s⌋, ⌊t.y / s⌋) t) g,
        0 < kc.2.tiles.length := by
    intro ts
    induction ts with
    | nil => intro g hg; simpa using hg
    | cons t rest ih =>
        intro g hg
        simp only [List.foldl_cons]
        refine ih _ ?_
        have step : ∀ (g : List ((ℤ × ℤ) × Cell)) (key : ℤ × ℤ),
            (∀ kc ∈ g, 0 < kc.2.tiles.length) →
            ∀ kc ∈ updateGrid s g key t, 0 < kc.2.tiles.length := by
          intro g key hk
          induction g with
          | nil => simp [updateGrid]
          | cons kc0 rest0 ih0 =>
              obtain ⟨k0, c0⟩ := kc0
              by_cases hkey : k0 = key
              · intro kc hkc
                simp only [updateGrid, if_pos hkey, List.mem_cons] at hkc
                rcases hkc with h | h
                · subst h
                  simp only [List.length_append, List.length_cons]
                  omega
                · exact hk _ (List.mem_cons_of_mem _ h)
              · intro kc hkc
                simp only [updateGrid, if_neg hkey, List.mem_cons] at hkc
                rcases hkc with h | h
                · exact hk _ (h ▸ List.mem_cons_self _ _)
                · exact ih0 (fun kc2 h2 => hk _ (List.mem_cons_of_mem _ h2)) _ h
        exact step g _ hg
  intro kc hkc
  exact aux ts [] (by simp) kc hkc

/-- Every nonempty cell yields exactly one merged tile. -/
theorem mergeStep_length (s : ℚ) (level : ℕ) (ts : List Tile) :
    (mergeStep s level ts).length = (buildGrid s ts).length := by
  rw [mergeStep]
  have aux : ∀ g : List ((ℤ × ℤ) × Cell),
      (∀ kc ∈ g, 0 < kc.2.tiles.length) →
      (g.filterMap fun kc =>
        if kc.2.tiles.length > 0 then some (mergeCell s level kc.2)
        else none).length = g.length := by
    intro g hg
    induction g with
    | nil => simp
    | cons kc rest ih =>
        have h1 : 0 < kc.2.tiles.length := hg kc (List.mem_cons_self _ _)
        simp only [List.filterMap_cons, if_pos h1, List.length_cons]
        rw [ih fun kc2 h2 => hg _ (List.mem_cons_of_mem _ h2)]
  exact aux _ (buildGrid_cell_pos s ts)

end TileManager

namespace TileManager

/-- Below the leaf level, each pyramid level is the merge of the level
above it. -/
theorem tilesByLevel_succ (blocks : List Tile) (k : ℕ) (hk : k < 5) :
    tilesByLevel blocks k =
      mergeStep (tileSizeAt k) k (tilesByLevel blocks (k + 1)) := by
  have h5 : 5 - k = (4 - k) + 1 := by omega
  have h4 : 5 - ((4 - k) + 1) = k := by omega
  have h6 : 5 - (k + 1) = 4 - k := by omega
  rw [tilesByLevel, h5, levelDown, h4, tilesByLevel, h6]

end TileManager

/-- C4 — pyramid conservation: for every level `k < 5`, level `k` is the
merge of level `k+1`; every merge-grid cell yields exactly one merged
tile (so merged tiles and cells correspond one to one); and the member
counts of the cells sum to the number of level-`(k+1)` tiles — each
level-`(k+1)` tile is grouped into exactly one cell. -/
theorem pyramid_conservation (blocks : List Tile) (k : ℕ) (hk : k < 5) :
    TileManager.tilesByLevel blocks k =
      TileManager.mergeStep (TileManager.tileSizeAt k) k
        (TileManager.tilesByLevel blocks (k + 1)) ∧
    (TileManager.tilesByLevel blocks k).length =
      (TileManager.buildGrid (TileManager.tileSizeAt k)
        (TileManager.tilesByLevel blocks (k + 1))).length ∧
    TileManager.sumMembers (TileManager.buildGrid (TileManager.tileSizeAt k)
        (TileManager.tilesByLevel blocks (k + 1))) =
      (TileManager.tilesByLevel blocks (k + 1)).length := by
  refine ⟨TileManager.tilesByLevel_succ blocks k hk, ?_, ?_⟩
  · rw [TileManager.tilesByLevel_succ blocks k hk,
      TileManager.mergeStep_length]
  · exact TileManager.sumMembers_buildGrid _ _

/-- C4 witness: on the single-leaf block list at level 0 the grid holds
one cell with one member. -/
theorem pyramid_conservation_sample :
    TileManager.sumMembers (TileManager.buildGrid (TileManager.tileSizeAt 0)
        (TileManager.tilesByLevel [⟨1/2, 1/2, 1, [1, 1, 1, 1], 5⟩] (0 + 1))) =
      (TileManager.tilesByLevel [⟨1/2, 1/2, 1, [1, 1, 1, 1], 5⟩] (0 + 1)).length :=
  (pyramid_conservation [⟨1/2, 1/2, 1, [1, 1, 1, 1], 5⟩] 0 (by decide)).2.2

namespace TileManager

/-- `addColor` always returns the four accumulated channels. -/
theorem addColor_getD (a b : List ℚ) (i : ℕ) (hi : i < 4) :
    (addColor a b).getD i 0 = a.getD i 0 + b.getD i 0 := by
  interval_cases i <;> rfl

theorem addColor_length (a b : List ℚ) : (addColor a b).length = 4 := rfl

/-- Channel `i < 4` of the accumulated colour is the sum of the members'
channel `i`. -/
theorem sumColors_getD (ts : List Tile) (i : ℕ) (hi : i < 4) :
    (sumColors ts).getD i 0 = (ts.map (chan i)).sum := by
  have aux : ∀ acc : List ℚ,
      (ts.foldl (fun acc t => addColor acc t.color) acc).getD i 0 =
        acc.getD i 0 + (ts.map (chan i)).sum := by
    induction ts with
    | nil => intro acc; simp
    | cons t rest ih =>
        intro acc
        simp only [List.foldl_cons, List.map_cons, List.sum_cons]
        rw [ih, addColor_getD _ _ _ hi, chan]
        ring
  rw [sumColors, aux]
  have h0 : ([0, 0, 0, 0] : List ℚ).getD i 0 = 0 := by interval_cases i <;> rfl
  rw [h0, zero_add]

theorem sumColors_length (ts : List Tile) : (sumColors ts).length = 4 := by
  have aux : ∀ acc : List ℚ, acc.length = 4 →
      (ts.foldl (fun acc t => addColor acc t.color) acc).length = 4 := by
    induction ts with
    | nil => intro acc h; simpa using h
    | cons t rest ih =>
        intro acc _
        simp only [List.foldl_cons]
        exact ih _ (addColor_length _ _)
  exact aux _ rfl

/-- The structural invariant of the merge grid: every cell records the
centre determined by its key, accumulates exactly the colours of its
member tiles, holds at least one member, and its members come from the
input list. -/
theorem buildGrid_cell_spec (s : ℚ) (ts : List Tile) :
    ∀ kc ∈ buildGrid s ts,
      kc.2.x = ((kc.1.1 : ℚ) + 1/2) * s ∧
      kc.2.y = ((kc.1.2 : ℚ) + 1/2) * s ∧
      kc.2.totalColor = sumColors kc.2.tiles ∧
      kc.2.tiles ≠ [] ∧
      ∀ u ∈ kc.2.tiles, u ∈ ts := by
  have step : ∀ (g : List ((ℤ × ℤ) × Cell)) (key : ℤ × ℤ) (t : Tile)
      (P : Tile → Prop), P t →
      (∀ kc ∈ g,
        kc.2.x = ((kc.1.1 : ℚ) + 1/2) * s ∧
        kc.2.y = ((kc.1.2 : ℚ) + 1/2) * s ∧
        kc.2.totalColor = sumColors kc.2.tiles ∧
        kc.2.tiles ≠ [] ∧ ∀ u ∈ kc.2.tiles, P u) →
      ∀ kc ∈ updateGrid s g key t,
        kc.2.x = ((kc.1.1 : ℚ) + 1/2) * s ∧
        kc.2.y = ((kc.1.2 : ℚ) + 1/2) * s ∧
        kc.2.totalColor = sumColors kc.2.tiles ∧
        kc.2.tiles ≠ [] ∧ ∀ u ∈ kc.2.tiles, P u := by
    intro g key t P hPt hg
    induction g with
    | nil =>
        intro kc hkc
        simp only [updateGrid, List.mem_singleton] at hkc
        subst hkc
        refine ⟨rfl, rfl, ?_, by simp, by simpa using hPt⟩
        simp [sumColors]
    | cons kc0 rest0 ih0 =>
        obtain ⟨k0, c0⟩ := kc0
        by_cases hkey : k0 = key
        · intro kc hkc
          simp only [updateGrid, if_pos hkey, List.mem_cons] at hkc
          rcases hkc with h | h
          · obtain ⟨hx, hy, htc, hne, hmem⟩ :=
              hg (k0, c0) (List.mem_cons_self _ _)
            subst h
            refine ⟨hx, hy, ?_, by simp, ?_⟩
            · show addColor c0.totalColor t.color = sumColors (c0.tiles ++ [t])
              rw [htc, sumColors, sumColors, List.foldl_append, List.foldl_cons,
                List.foldl_nil]
            · intro u hu
              simp only [List.mem_append, List.mem_singleton] at hu
              rcases hu with hu | hu
              · exact hmem u hu
              · exact hu ▸ hPt
          · exact hg kc (List.mem_cons_of_mem _ h)
        · intro kc hkc
          simp only [updateGrid, if_neg hkey, List.mem_cons] at hkc
          rcases hkc with h | h
          · exact hg kc (h ▸ List.mem_cons_self _ _)
          · exact ih0 (fun kc2 h2 => hg _ (List.mem_cons_of_mem _ h2)) kc h
  have aux : ∀ (rest : List Tile) (g : List ((ℤ × ℤ) × Cell)),
      (∀ kc ∈ g,
        kc.2.x = ((kc.1.1 : ℚ) + 1/2) * s ∧
        kc.2.y = ((kc.1.2 : ℚ) + 1/2) * s ∧
        kc.2.totalColor = sumColors kc.2.tiles ∧
        kc.2.tiles ≠ [] ∧ ∀ u ∈ kc.2.tiles, u ∈ ts) →
      (∀ u ∈ rest, u ∈ ts) →
      ∀ kc ∈ rest.foldl
        (fun grid t => updateGrid s grid (⌊t.x / s⌋, ⌊t.y / s⌋) t) g,
        kc.2.x = ((kc.1.1 : ℚ) + 1/2) * s ∧
        kc.2.y = ((kc.1.2 : ℚ) + 1/2) * s ∧
        kc.2.totalColor = sumColors kc.2.tiles ∧
        kc.2.tiles ≠ [] ∧ ∀ u ∈ kc.2.tiles, u ∈ ts := by
    intro rest
    induction rest with
    | nil => intro g hg _; simpa using hg
    | cons t rest2 ih =>
        intro g hg hts
        simp only [List.foldl_cons]
        refine ih _ (step g _ t _ (hts t (List.mem_cons_self _ _)) hg) ?_
        intro u hu
        exact hts u (List.mem_cons_of_mem _ hu)
  exact aux ts [] (by simp) (fun u hu => hu)

end TileManager

namespace TileManager

/-- Every tile of a merged level is the merge of some grid cell. -/
theorem mem_mergeStep {s : ℚ} {level : ℕ} {ts : List Tile} {m : Tile}
    (hm : m ∈ mergeStep s level ts) :
    ∃ kc ∈ buildGrid s ts, m = mergeCell s level kc.2 := by
  rw [mergeStep] at hm
  simp only [List.mem_filterMap] at hm
  obtain ⟨kc, hkc, hsome⟩ := hm
  refine ⟨kc, hkc, ?_⟩
  by_cases h : kc.2.tiles.length > 0
  · rw [if_pos h] at hsome
    exact (Option.some_inj.mp hsome).symm
  · rw [if_neg h] at hsome
    cases hsome

theorem getD_map_of_lt (l : List ℚ) (f : ℚ → ℚ) (i : ℕ) (hi : i < l.length) :
    (l.map f).getD i 0 = f (l.getD i 0) := by
  rw [List.getD_eq_getElem?_getD, List.getElem?_map,
    List.getElem?_eq_getElem hi, List.getD_eq_getElem?_getD,
    List.getElem?_eq_getElem hi]
  rfl

end TileManager

/-- C5 — every merged tile at level `k < 5` comes from a nonempty merge
cell `(g_x, g_y)`: it is centred at `((g_x+0.5)·s_k, (g_y+0.5)·s_k)` with
side `s_k`; each colour channel `i < 4` equals the arithmetic mean of its
members' channel `i`; and consequently each channel lies between any
lower and upper bound of the members' channel (in particular between the
members' minimum and maximum). -/
theorem merged_tile_mean (blocks : List Tile) (k : ℕ) (hk : k < 5)
    (m : Tile) (hm : m ∈ TileManager.tilesByLevel blocks k) :
    ∃ kc ∈ TileManager.buildGrid (TileManager.tileSizeAt k)
        (TileManager.tilesByLevel blocks (k + 1)),
      kc.2.tiles ≠ [] ∧
      m.x = ((kc.1.1 : ℚ) + 1/2) * TileManager.tileSizeAt k ∧
      m.y = ((kc.1.2 : ℚ) + 1/2) * TileManager.tileSizeAt k ∧
      m.size = TileManager.tileSizeAt k ∧
      m.level = k ∧
      (∀ i < 4, TileManager.chan i m =
        (kc.2.tiles.map (TileManager.chan i)).sum / (kc.2.tiles.length : ℚ)) ∧
      (∀ i < 4, ∀ lo hi : ℚ,
        (∀ u ∈ kc.2.tiles,
          lo ≤ TileManager.chan i u ∧ TileManager.chan i u ≤ hi) →
        lo ≤ TileManager.chan i m ∧ TileManager.chan i m ≤ hi) := by
  rw [TileManager.tilesByLevel_succ blocks k hk] at hm
  obtain ⟨kc, hkc, rfl⟩ := TileManager.mem_mergeStep hm
  obtain ⟨hx, hy, htc, hne, _⟩ :=
    TileManager.buildGrid_cell_spec _ _ kc hkc
  have hmean : ∀ i < 4,
      TileManager.chan i (TileManager.mergeCell (TileManager.tileSizeAt k) k kc.2) =
        (kc.2.tiles.map (TileManager.chan i)).sum / (kc.2.tiles.length : ℚ) := by
    intro i hi
    show (kc.2.totalColor.map fun v => v / (kc.2.tiles.length : ℚ)).getD i 0 = _
    have hlen : i < kc.2.totalColor.length := by
      rw [htc, TileManager.sumColors_length]; exact hi
    rw [TileManager.getD_map_of_lt _ _ _ hlen, htc,
      TileManager.sumColors_getD _ _ hi]
  refine ⟨kc, hkc, hne, hx, hy, rfl, rfl, hmean, ?_⟩
  intro i hi lo hi2 hb
  have hn : 0 < (kc.2.tiles.length : ℚ) := by
    have : 0 < kc.2.tiles.length := List.length_pos.mpr hne
    exact_mod_cast this
  have hsumlo : (kc.2.tiles.length : ℚ) * lo ≤
      (kc.2.tiles.map (TileManager.chan i)).sum := by
    have := List.card_nsmul_le_sum
      (l := kc.2.tiles.map (TileManager.chan i)) (n := lo)
      (fun x hx2 => by
        obtain ⟨u, hu, rfl⟩ := List.mem_map.mp hx2
        exact (hb u hu).1)
    rw [List.length_map, nsmul_eq_mul] at this
    exact_mod_cast this
  have hsumhi : (kc.2.tiles.map (TileManager.chan i)).sum ≤
      (kc.2.tiles.length : ℚ) * hi2 := by
    have := List.sum_le_card_nsmul
      (l := kc.2.tiles.map (TileManager.chan i)) (n := hi2)
      (fun x hx2 => by
        obtain ⟨u, hu, rfl⟩ := List.mem_map.mp hx2
        exact (hb u hu).2)
    rw [List.length_map, nsmul_eq_mul] at this
    exact_mod_cast this
  rw [hmean i hi]
  constructor
  · rw [le_div_iff₀ hn]
    linarith
  · rw [div_le_iff₀ hn]
    linarith

/-- C5 witness: the single-leaf pyramid's level-0 tile sits at `(16, 16)`
with side 32 and the member-mean colour. -/
theorem merged_tile_mean_sample :
    ∃ kc ∈ TileManager.buildGrid (TileManager.tileSizeAt 0)
        (TileManager.tilesByLevel [⟨1/2, 1/2, 1, [1, 1, 1, 1], 5⟩] (0 + 1)),
      kc.2.tiles ≠ [] ∧
      (⟨16, 16, 32, [1, 1, 1, 1], 0⟩ : Tile).x =
        ((kc.1.1 : ℚ) + 1/2) * TileManager.tileSizeAt 0 ∧
      (⟨16, 16, 32, [1, 1, 1, 1], 0⟩ : Tile).y =
        ((kc.1.2 : ℚ) + 1/2) * TileManager.tileSizeAt 0 ∧
      (⟨16, 16, 32, [1, 1, 1, 1], 0⟩ : Tile).size = TileManager.tileSizeAt 0 ∧
      (⟨16, 16, 32, [1, 1, 1, 1], 0⟩ : Tile).level = 0 ∧
      (∀ i < 4, TileManager.chan i (⟨16, 16, 32, [1, 1, 1, 1], 0⟩ : Tile) =
        (kc.2.tiles.map (TileManager.chan i)).sum / (kc.2.tiles.length : ℚ)) ∧
      (∀ i < 4, ∀ lo hi : ℚ,
        (∀ u ∈ kc.2.tiles,
          lo ≤ TileManager.chan i u ∧ TileManager.chan i u ≤ hi) →
        lo ≤ TileManager.chan i (⟨16, 16, 32, [1, 1, 1, 1], 0⟩ : Tile) ∧
          TileManager.chan i (⟨16, 16, 32, [1, 1, 1, 1], 0⟩ : Tile) ≤ hi) :=
  merged_tile_mean [⟨1/2, 1/2, 1, [1, 1, 1, 1], 5⟩] 0 (by decide)
    ⟨16, 16, 32, [1, 1, 1, 1], 0⟩ (by with_unfolding_all decide)

/-- C6 — on the zoom range `[0.1, 10]` the code's base LOD level equals
the spec formula `⌊u·(L-1)⌋` clamped to `[0, L-1]` with
`u = ((z - z_min)/(z_max - z_min))^0.8` clamped to `[0, 1]` (the clamps
are inactive there), and the level is non-decreasing in the zoom. -/
theorem zoom_level_formula_monotone :
    (∀ z : ℝ, 1/10 ≤ z → z ≤ 10 →
      TileManager.calculateLODLevelFromZoom z = specBaseLevel z) ∧
    (∀ z1 z2 : ℝ, 1/10 ≤ z1 → z1 ≤ z2 → z2 ≤ 10 →
      TileManager.calculateLODLevelFromZoom z1 ≤
        TileManager.calculateLODLevelFromZoom z2) := by
  have hr_nonneg : ∀ z : ℝ, 1/10 ≤ z → 0 ≤ (z - 1/10) / (10 - 1/10) := by
    intro z hz
    apply div_nonneg (by linarith) (by norm_num)
  have hr_le_one : ∀ z : ℝ, z ≤ 10 → (z - 1/10) / (10 - 1/10) ≤ 1 := by
    intro z hz
    rw [div_le_one (by norm_num)]
    linarith
  have hu_nonneg : ∀ z : ℝ, 1/10 ≤ z →
      0 ≤ ((z - 1/10) / (10 - 1/10)) ^ (0.8 : ℝ) := by
    intro z hz
    exact Real.rpow_nonneg (hr_nonneg z hz) _
  have hu_le_one : ∀ z : ℝ, 1/10 ≤ z → z ≤ 10 →
      ((z - 1/10) / (10 - 1/10)) ^ (0.8 : ℝ) ≤ 1 := by
    intro z hz1 hz2
    exact Real.rpow_le_one (hr_nonneg z hz1) (hr_le_one z hz2) (by norm_num)
  constructor
  · intro z hz1 hz2
    rw [TileManager.calculateLODLevelFromZoom, specBaseLevel]
    rw [max_eq_right (hu_nonneg z hz1), min_eq_right (hu_le_one z hz1 hz2)]
    rw [max_eq_right]
    have h0 : (0 : ℤ) ≤ ⌊((z - 1/10) / (10 - 1/10)) ^ (0.8 : ℝ) * 5⌋ := by
      apply Int.floor_nonneg.mpr
      have := hu_nonneg z hz1
      linarith
    exact le_min (by norm_num) h0
  · intro z1 z2 h1 h12 h2
    rw [TileManager.calculateLODLevelFromZoom,
      TileManager.calculateLODLevelFromZoom]
    refine min_le_min le_rfl (Int.floor_le_floor ?_)
    have hpow : ((z1 - 1/10) / (10 - 1/10)) ^ (0.8 : ℝ) ≤
        ((z2 - 1/10) / (10 - 1/10)) ^ (0.8 : ℝ) := by
      apply Real.rpow_le_rpow (hr_nonneg z1 h1) ?_ (by norm_num)
      gcongr
    linarith [hpow]

/-- C6 witness: the end points of the zoom range give levels 0 and 5, in
order. -/
theorem zoom_level_sample :
    TileManager.calculateLODLevelFromZoom (1/10) ≤
      TileManager.calculateLODLevelFromZoom 10 :=
  zoom_level_formula_monotone.2 (1/10) 10 (by norm_num) (by norm_num)
    (by norm_num)

theorem mem_identityM_isSome : ∀ v ∈ MathUtils.identityM, v.isSome = true := by
  intro v hv
  fin_cases hv <;> rfl

theorem ortho_isSome (l r b t n f : Option ℝ) :
    ∀ v ∈ MathUtils.ortho l r b t n f, v.isSome = true := by
  intro v hv
  unfold MathUtils.ortho at hv
  split at hv
  · split_ifs at hv
    · exact mem_identityM_isSome v hv
    · fin_cases hv <;> rfl
  · exact mem_identityM_isSome v hv

theorem translation_isSome (tx ty tz : Option ℝ) :
    ∀ v ∈ MathUtils.translation tx ty tz, v.isSome = true := by
  intro v hv
  unfold MathUtils.translation at hv
  split at hv
  · fin_cases hv <;> rfl
  · exact mem_identityM_isSome v hv


theorem multiplyMatrix_isSome (a b : List (Option ℝ)) :
    ∀ v ∈ MathUtils.multiplyMatrix a b, v.isSome = true := by
  intro v hv
  unfold MathUtils.multiplyMatrix at hv
  split at hv
  · split_ifs at hv with h1 h2
    · exact mem_identityM_isSome v hv
    · exact mem_identityM_isSome v hv
    · simp only [List.any_eq_true, not_exists, not_and] at h2
      cases v with
      | none => exact absurd rfl (h2 none hv)
      | some w => rfl
  · exact mem_identityM_isSome v hv

/-- In the real-valued model the recomputed camera matrix never contains a
non-finite entry: the orthographic and translation factors are built from
finite values behind their own guards, and the product of two such
16-entry matrices is entrywise finite. -/
theorem resMatrix_any_false (c : Camera) :
    (c.resMatrix.any fun v => v.isNone) = false := by
  unfold Camera.resMatrix Camera.projMatrix Camera.viewMatrix
  simp only [MathUtils.ortho, MathUtils.translation]
  split_ifs with h
  · rfl
  · rfl

/-- `updateMatrix` always succeeds in the model: it stores the recomputed
matrix, records it as last-good, checks the zoom, and touches nothing
else. -/
theorem updateMatrix_eq (c : Camera) :
    Camera.updateMatrix c =
      ({ c with zoom := c.zoomChecked,
                matrix := c.resMatrix,
                lastGood := some c.resMatrix }, true) := by
  rw [Camera.updateMatrix, resMatrix_any_false]
  simp


/-- `pan` leaves every matrix entry finite. -/
theorem pan_matrix_isSome (c : Camera) (dx dy : Option ℝ)
    (h : ∀ v ∈ c.matrix, v.isSome = true) :
    ∀ v ∈ (c.pan dx dy).matrix, v.isSome = true := by
  cases dx with
  | none => cases dy <;> exact h
  | some d1 =>
      cases dy with
      | none => exact h
      | some d2 =>
          simp only [Camera.pan, updateMatrix_eq, if_true]
          exact multiplyMatrix_isSome _ _

/-- `zoomCamera` leaves every matrix entry finite. -/
theorem zoomCamera_matrix_isSome (c : Camera) (d : Option ℝ)
    (h : ∀ v ∈ c.matrix, v.isSome = true) :
    ∀ v ∈ (c.zoomCamera d).matrix, v.isSome = true := by
  cases d with
  | none => exact h
  | some d0 =>
      simp only [Camera.zoomCamera, updateMatrix_eq, if_true]
      exact multiplyMatrix_isSome _ _

/-- `reset` leaves every matrix entry finite. -/
theorem reset_matrix_isSome (c : Camera) :
    ∀ v ∈ c.reset.matrix, v.isSome = true := by
  simp only [Camera.reset, updateMatrix_eq]
  exact multiplyMatrix_isSome _ _

/-- C7 — after any sequence of pan / zoom / reset events with arbitrary
(possibly non-finite) payloads, every entry of the camera matrix is a
finite number: non-finite inputs are rejected at the event entry, and the
matrix update path validates every entry before storing (falling back to
the last known-good matrix otherwise). -/
theorem camera_matrix_always_finite (ops : List CamOp) :
    ((Camera.run ops).matrix.all fun v => v.isSome) = true := by
  rw [List.all_eq_true]
  rw [Camera.run]
  have init_ok : ∀ v ∈ Camera.init.matrix, v.isSome = true := by
    rw [Camera.init, updateMatrix_eq]
    exact multiplyMatrix_isSome _ _
  have aux : ∀ (l : List CamOp) (c : Camera),
      (∀ v ∈ c.matrix, v.isSome = true) →
      ∀ v ∈ (l.foldl (fun c op =>
        match op with
        | CamOp.pan dx dy => c.pan dx dy
        | CamOp.zoomStep d => c.zoomCamera d
        | CamOp.reset => c.reset) c).matrix, v.isSome = true := by
    intro l
    induction l with
    | nil => intro c h; exact h
    | cons op rest ih =>
        intro c h
        simp only [List.foldl_cons]
        cases op with
        | pan dx dy => exact ih _ (pan_matrix_isSome c dx dy h)
        | zoomStep d => exact ih _ (zoomCamera_matrix_isSome c d h)
        | reset => exact ih _ (reset_matrix_isSome c)
  exact aux ops _ init_ok

theorem clamp_eq_self {v : ℝ} (h : |v| ≤ 10000) :
    max (-10000) (min 10000 v) = v := by
  rw [abs_le] at h
  rw [min_eq_right h.2, max_eq_right h.1]

/-- C2 amended — `Camera.pan` does not translate by `panSpeed / zoom`:
the pixel deltas are scaled by `panSpeed = 0.25` *and* by the factor
`log(max(0.5, z))·0.5 / max(0.1, z)`, the result moves the smoothing
target, and (smoothing being enabled by default) the position moves only
`0.2` of the way toward the target.  Whenever no clamp triggers, one call
from state `c` yields
`target' = target ∓ delta·0.25·log(max(0.5,z))·0.5/max(0.1,z)` (sign
inverted on `y`) and `position' = position + (target' - position)·0.2`. -/
theorem pan_formula (c : Camera) (dx dy : ℝ)
    (hpx : |c.posX| ≤ 10000) (hpy : |c.posY| ≤ 10000)
    (htx : |c.targetX - dx * (1/4) *
      (Real.log (max (1/2) c.zoom) * (1/2) / max (1/10) c.zoom)| ≤ 10000)
    (hty : |c.targetY + dy * (1/4) *
      (Real.log (max (1/2) c.zoom) * (1/2) / max (1/10) c.zoom)| ≤ 10000) :
    (c.pan (some dx) (some dy)).targetX = c.targetX - dx * (1/4) *
      (Real.log (max (1/2) c.zoom) * (1/2) / max (1/10) c.zoom) ∧
    (c.pan (some dx) (some dy)).targetY = c.targetY + dy * (1/4) *
      (Real.log (max (1/2) c.zoom) * (1/2) / max (1/10) c.zoom) ∧
    (c.pan (some dx) (some dy)).posX = c.posX + ((c.targetX - dx * (1/4) *
      (Real.log (max (1/2) c.zoom) * (1/2) / max (1/10) c.zoom)) - c.posX)
        * (1/5) ∧
    (c.pan (some dx) (some dy)).posY = c.posY + ((c.targetY + dy * (1/4) *
      (Real.log (max (1/2) c.zoom) * (1/2) / max (1/10) c.zoom)) - c.posY)
        * (1/5) := by
  have habs : ∀ a b : ℝ, |a| ≤ 10000 → |b| ≤ 10000 →
      |a + (b - a) * (1/5)| ≤ 10000 := by
    intro a b ha hb
    have : a + (b - a) * (1/5) = a * (4/5) + b * (1/5) := by ring
    rw [this]
    calc |a * (4/5) + b * (1/5)| ≤ |a * (4/5)| + |b * (1/5)| := abs_add _ _
      _ = |a| * (4/5) + |b| * (1/5) := by
          rw [abs_mul, abs_mul, abs_of_nonneg (by norm_num : (0:ℝ) ≤ 4/5),
            abs_of_nonneg (by norm_num : (0:ℝ) ≤ 1/5)]
      _ ≤ 10000 * (4/5) + 10000 * (1/5) := by
          have h1 : |a| * (4/5) ≤ 10000 * (4/5) := by nlinarith
          have h2 : |b| * (1/5) ≤ 10000 * (1/5) := by nlinarith
          linarith
      _ = 10000 := by norm_num
  simp only [Camera.pan, updateMatrix_eq, if_true]
  rw [clamp_eq_self htx, clamp_eq_self hty,
    clamp_eq_self (habs _ _ hpx htx), clamp_eq_self (habs _ _ hpy hty)]
  exact ⟨rfl, rfl, rfl, rfl⟩

/-- C2 amended witness: at the freshly constructed camera (zoom 1,
`log 1 = 0`) a pan of `(+100, +100)` leaves the position at the origin. -/
theorem pan_formula_sample :
    (Camera.init.pan (some 100) (some 100)).posX = 0 := by
  have hfields : Camera.init.posX = 0 ∧ Camera.init.posY = 0 ∧
      Camera.init.targetX = 0 ∧ Camera.init.targetY = 0 ∧
      Camera.init.zoom = 1 := by
    rw [Camera.init, updateMatrix_eq]
    refine ⟨rfl, rfl, rfl, rfl, ?_⟩
    show Camera.zoomChecked _ = 1
    rw [Camera.zoomChecked]
    norm_num
  obtain ⟨h1, h2, h3, h4, h5⟩ := hfields
  have := (pan_formula Camera.init 100 100
    (by rw [h1]; norm_num) (by rw [h2]; norm_num)
    (by rw [h3, h5]; norm_num [Real.log_one])
    (by rw [h4, h5]; norm_num [Real.log_one])).2.2.1
  rw [this, h1, h3, h5]
  norm_num [Real.log_one]

/-- Zooming in by `+0.5` steps from the fresh camera: after `n` steps the
zoom is `min 10 (1 + n/2)` and the position and target are still the
origin. -/
theorem zoom_steps_state (n : ℕ) :
    (Camera.run (List.replicate n (CamOp.zoomStep (some (1/2))))).posX = 0 ∧
    (Camera.run (List.replicate n (CamOp.zoomStep (some (1/2))))).posY = 0 ∧
    (Camera.run (List.replicate n (CamOp.zoomStep (some (1/2))))).targetX = 0 ∧
    (Camera.run (List.replicate n (CamOp.zoomStep (some (1/2))))).targetY = 0 ∧
    (Camera.run (List.replicate n (CamOp.zoomStep (some (1/2))))).zoom =
      min 10 (1 + (n : ℝ) / 2) := by
  induction n with
  | zero =>
      simp only [List.replicate, Camera.run, List.foldl_nil]
      rw [Camera.init, updateMatrix_eq]
      refine ⟨rfl, rfl, rfl, rfl, ?_⟩
      show Camera.zoomChecked _ = _
      rw [Camera.zoomChecked]
      norm_num
  | succ n ih =>
      obtain ⟨h1, h2, h3, h4, h5⟩ := ih
      have hstep : Camera.run
          (List.replicate (n + 1) (CamOp.zoomStep (some (1/2)))) =
          (Camera.run (List.replicate n (CamOp.zoomStep (some (1/2))))).zoomCamera
            (some (1/2)) := by
        rw [List.replicate_succ', Camera.run, Camera.run, List.foldl_append,
          List.foldl_cons, List.foldl_nil]
      rw [hstep]
      simp only [Camera.zoomCamera, updateMatrix_eq, if_true]
      refine ⟨h1, h2, h3, h4, ?_⟩
      show Camera.zoomChecked _ = _
      rw [Camera.zoomChecked]
      simp only [h5]
      have hb : max (-(1/2)) (min (1/2) (1/2)) = (1/2 : ℝ) := by norm_num
      rw [hb]
      have hpos : (1/10 : ℝ) ≤
          max (1/10) (min 10 (min 10 (1 + (n : ℝ) / 2) + 1/2)) :=
        le_max_left _ _
      rw [if_neg (by linarith)]
      have hn0 : (0 : ℝ) ≤ (n : ℝ) := Nat.cast_nonneg n
      rcases le_total (1 + (n : ℝ) / 2) 10 with h | h
      · rw [min_eq_right h]
        have : (1/10 : ℝ) ≤ min 10 (1 + (n : ℝ) / 2 + 1/2) := by
          apply le_min (by norm_num)
          linarith
        rw [max_eq_right this]
        congr 1
        push_cast
        ring
      · rw [min_eq_left h]
        have h2' : min (10 : ℝ) (10 + 1/2) = 10 := by norm_num
        rw [h2']
        rw [max_eq_right (by norm_num : (1/10 : ℝ) ≤ 10)]
        rw [min_eq_left (by push_cast; linarith)]

/-- C2 counterexample — scenario S5: zoom to `z = 10` (18 half-steps)
then pan by `(+100, +100)`.  The position becomes
`(-log 10 / 4, +log 10 / 4) ≈ (-0.5756, +0.5756)`, not the claimed
`(-2.5, +2.5)`: the pan factor is not `0.25 / max(0.1, z)` — the code
also multiplies by `log(max(0.5, z))·0.5` and smooths by `0.2`. -/
theorem pan_s5_counterexample :
    (Camera.run (List.replicate 18 (CamOp.zoomStep (some (1/2))))).zoom = 10 ∧
    ((Camera.run (List.replicate 18 (CamOp.zoomStep (some (1/2))))).pan
        (some 100) (some 100)).posX = -(Real.log 10 / 4) ∧
    ((Camera.run (List.replicate 18 (CamOp.zoomStep (some (1/2))))).pan
        (some 100) (some 100)).posY = Real.log 10 / 4 ∧
    ((Camera.run (List.replicate 18 (CamOp.zoomStep (some (1/2))))).pan
        (some 100) (some 100)).posX ≠ -(5/2) := by
  obtain ⟨h1, h2, h3, h4, h5⟩ := zoom_steps_state 18
  have hz : (Camera.run (List.replicate 18 (CamOp.zoomStep (some (1/2))))).zoom
      = 10 := by
    rw [h5]
    norm_num
  have hlog9 : Real.log 10 ≤ 9 := by
    have := Real.log_le_sub_one_of_pos (by norm_num : (0:ℝ) < 10)
    linarith
  have hlog0 : 0 ≤ Real.log 10 := Real.log_nonneg (by norm_num)
  have hmax1 : max (1/2 : ℝ) 10 = 10 := max_eq_right (by norm_num)
  have hmax2 : max (1/10 : ℝ) 10 = 10 := max_eq_right (by norm_num)
  have hfac : Real.log (max (1/2)
      (Camera.run (List.replicate 18 (CamOp.zoomStep (some (1/2))))).zoom) *
        (1/2) / max (1/10)
      (Camera.run (List.replicate 18 (CamOp.zoomStep (some (1/2))))).zoom =
      Real.log 10 / 20 := by
    rw [hz, hmax1, hmax2]
    ring
  have hpf := pan_formula
    (Camera.run (List.replicate 18 (CamOp.zoomStep (some (1/2))))) 100 100
    (by rw [h1]; norm_num) (by rw [h2]; norm_num)
    (by rw [h3, hfac]; rw [abs_le]; constructor <;> nlinarith)
    (by rw [h4, hfac]; rw [abs_le]; constructor <;> nlinarith)
  obtain ⟨htx, hty, hpx, hpy⟩ := hpf
  rw [hfac] at hpx hpy
  rw [h1, h3] at hpx
  rw [h2, h4] at hpy
  refine ⟨hz, ?_, ?_, ?_⟩
  · rw [hpx]; ring
  · rw [hpy]; ring
  · rw [hpx]
    intro hEq
    have : Real.log 10 = 10 := by linarith
    linarith

namespace QNode

/-- Insertion never changes a node's bounds. -/
theorem insert_boundsOf (fuel : ℕ) (n : QNode) (t : Tile) :
    (insert fuel n t).boundsOf = n.boundsOf := by
  cases fuel with
  | zero => cases n; rfl
  | succ f =>
      cases n with
      | node qx qy qw qh d mD mI items cs =>
          simp only [insert]
          repeat' split
          all_goals rfl

/-- Insertion never changes a node's containment test. -/
theorem insert_contains (fuel : ℕ) (n : QNode) (t : Tile) (x y : ℚ) :
    (insert fuel n t).contains x y = n.contains x y := by
  have h := insert_boundsOf fuel n t
  cases hn : insert fuel n t with
  | node qx qy qw qh d mD mI items cs =>
      cases n with
      | node qx0 qy0 qw0 qh0 d0 mD0 mI0 items0 cs0 =>
          rw [hn] at h
          simp only [boundsOf, QNode.bx, QNode.cy, QNode.bw, QNode.bh,
            Prod.mk.injEq] at h
          obtain ⟨e1, e2, e3, e4⟩ := h
          simp only [contains, QNode.bx, QNode.cy, QNode.bw, QNode.bh,
            e1, e2, e3, e4]

/-- `insertItemIntoChildren` fails exactly when no child contains the
centre. -/
theorem insChildren_eq_none {ins : QNode → Tile → QNode} {cs : List QNode}
    {t : Tile} (h : insChildren ins cs t = none) :
    ∀ c ∈ cs, c.contains t.x t.y = false := by
  induction cs with
  | nil => intro c hc; cases hc
  | cons c0 rest ih =>
      intro c hc
      rw [insChildren] at h
      by_cases hc0 : c0.contains t.x t.y = true
      · rw [if_pos hc0] at h; cases h
      · rw [if_neg hc0] at h
        rcases List.mem_cons.mp hc with rfl | hc2
        · exact Bool.eq_false_iff.mpr hc0
        · cases hrec : insChildren ins rest t with
          | none => exact ih hrec c hc2
          | some cs2 => rw [hrec] at h; cases h

/-- A successful `insertItemIntoChildren` replaces the first containing
child with its insertion and keeps everything else. -/
theorem insChildren_eq_some {ins : QNode → Tile → QNode} {cs cs2 : List QNode}
    {t : Tile} (h : insChildren ins cs t = some cs2) :
    ∃ l c r, cs = l ++ c :: r ∧ c.contains t.x t.y = true ∧
      cs2 = l ++ ins c t :: r := by
  induction cs generalizing cs2 with
  | nil => rw [insChildren] at h; cases h
  | cons c0 rest ih =>
      rw [insChildren] at h
      by_cases hc0 : c0.contains t.x t.y = true
      · rw [if_pos hc0] at h
        exact ⟨[], c0, rest, rfl, hc0, (Option.some_inj.mp h).symm⟩
      · rw [if_neg hc0] at h
        cases hrec : insChildren ins rest t with
        | none => rw [hrec] at h; cases h
        | some cs3 =>
            rw [hrec] at h
            obtain ⟨l, c, r, hcs, hcont, hcs3⟩ := ih hrec
            refine ⟨c0 :: l, c, r, by rw [hcs]; rfl, hcont, ?_⟩
            rw [← Option.some_inj.mp h, hcs3]
            rfl

end QNode

namespace QNode

/-- The four children of `subdivide` exactly tile the parent's half-open
bounds: a point inside the parent lies in (at least) one child. -/
theorem mkChildren_cover {qx qy qw qh : ℚ} {d mD mI : ℕ}
    {items : List Tile} {cs : List QNode} {x y : ℚ}
    (h : (node qx qy qw qh d mD mI items cs).contains x y = true) :
    ∃ c ∈ mkChildren qx qy qw qh d mD mI, c.contains x y = true := by
  simp only [contains, QNode.bx, QNode.cy, QNode.bw, QNode.bh,
    Bool.and_eq_true, decide_eq_true_eq] at h
  obtain ⟨⟨⟨hx1, hx2⟩, hy1⟩, hy2⟩ := h
  rcases le_or_lt qx x with hx | hx <;> rcases le_or_lt qy y with hy | hy
  · -- right, top: child TR
    refine ⟨node (qx + qw / 4) (qy + qh / 4) (qw / 2) (qh / 2)
      (d + 1) mD mI [] [], by simp [mkChildren], ?_⟩
    simp only [contains, QNode.bx, QNode.cy, QNode.bw, QNode.bh,
      Bool.and_eq_true, decide_eq_true_eq]
    refine ⟨⟨⟨by linarith, by linarith⟩, by linarith⟩, by linarith⟩
  · -- right, bottom: child BR
    refine ⟨node (qx + qw / 4) (qy - qh / 4) (qw / 2) (qh / 2)
      (d + 1) mD mI [] [], by simp [mkChildren], ?_⟩
    simp only [contains, QNode.bx, QNode.cy, QNode.bw, QNode.bh,
      Bool.and_eq_true, decide_eq_true_eq]
    refine ⟨⟨⟨by linarith, by linarith⟩, by linarith⟩, by linarith⟩
  · -- left, top: child TL
    refine ⟨node (qx - qw / 4) (qy + qh / 4) (qw / 2) (qh / 2)
      (d + 1) mD mI [] [], by simp [mkChildren], ?_⟩
    simp only [contains, QNode.bx, QNode.cy, QNode.bw, QNode.bh,
      Bool.and_eq_true, decide_eq_true_eq]
    refine ⟨⟨⟨by linarith, by linarith⟩, by linarith⟩, by linarith⟩
  · -- left, bottom: child BL
    refine ⟨node (qx - qw / 4) (qy - qh / 4) (qw / 2) (qh / 2)
      (d + 1) mD mI [] [], by simp [mkChildren], ?_⟩
    simp only [contains, QNode.bx, QNode.cy, QNode.bw, QNode.bh,
      Bool.and_eq_true, decide_eq_true_eq]
    refine ⟨⟨⟨by linarith, by linarith⟩, by linarith⟩, by linarith⟩

end QNode

namespace QNode

/-- Inserting preserves every stored tile (the frame property), and a
tile whose centre the node contains ends up stored (the placement
property) — for every fuel value. -/
theorem insert_stored (fuel : ℕ) :
    (∀ n t u, Stored n u → Stored (insert fuel n t) u) ∧
    (∀ n t, n.contains t.x t.y = true → Stored (insert fuel n t) t) := by
  induction fuel with
  | zero =>
      constructor
      · intro n t u hst
        cases n with
        | node qx qy qw qh d mD mI items cs =>
            cases hst with
            | here hmem hcont =>
                exact Stored.here (List.mem_append_left _ hmem) hcont
            | child hc hstc hcont => exact Stored.child hc hstc hcont
      · intro n t hcont
        cases n with
        | node qx qy qw qh d mD mI items cs =>
            exact Stored.here
              (List.mem_append_right _ (List.mem_singleton.mpr rfl)) hcont
  | succ f ih =>
      obtain ⟨ihF, ihS⟩ := ih
      have stepCover : ∀ (acc : List QNode) (it : Tile) (x y : ℚ),
          (∃ c ∈ acc, c.contains x y = true) →
          ∃ c ∈ (match insChildren (insert f) acc it with
                 | some acc2 => acc2
                 | none => acc), c.contains x y = true := by
        intro acc it x y hex
        obtain ⟨c', hc', hcont'⟩ := hex
        cases hins : insChildren (insert f) acc it with
        | none => exact ⟨c', hc', hcont'⟩
        | some a2 =>
            obtain ⟨l, c, r, hacc, hcont, ha2⟩ := insChildren_eq_some hins
            subst hacc
            subst ha2
            rcases List.mem_append.mp hc' with hl | hcr
            · exact ⟨c', List.mem_append_left _ hl, hcont'⟩
            · rcases List.mem_cons.mp hcr with rfl | hr
              · refine ⟨insert f c' it,
                  List.mem_append_right _ (List.mem_cons_self _ _), ?_⟩
                rw [insert_contains]
                exact hcont'
              · exact ⟨c',
                  List.mem_append_right _ (List.mem_cons_of_mem _ hr), hcont'⟩
      have stepStored : ∀ (acc : List QNode) (it : Tile) (u : Tile),
          (∃ c ∈ acc, Stored c u) →
          ∃ c ∈ (match insChildren (insert f) acc it with
                 | some acc2 => acc2
                 | none => acc), Stored c u := by
        intro acc it u hex
        obtain ⟨c', hc', hst'⟩ := hex
        cases hins : insChildren (insert f) acc it with
        | none => exact ⟨c', hc', hst'⟩
        | some a2 =>
            obtain ⟨l, c, r, hacc, hcont, ha2⟩ := insChildren_eq_some hins
            subst hacc
            subst ha2
            rcases List.mem_append.mp hc' with hl | hcr
            · exact ⟨c', List.mem_append_left _ hl, hst'⟩
            · rcases List.mem_cons.mp hcr with rfl | hr
              · exact ⟨insert f c' it,
                  List.mem_append_right _ (List.mem_cons_self _ _),
                  ihF c' it u hst'⟩
              · exact ⟨c',
                  List.mem_append_right _ (List.mem_cons_of_mem _ hr), hst'⟩
      have stepPlace : ∀ (acc : List QNode) (it : Tile),
          (∃ c ∈ acc, c.contains it.x it.y = true) →
          ∃ c ∈ (match insChildren (insert f) acc it with
                 | some acc2 => acc2
                 | none => acc), Stored c it := by
        intro acc it hex
        obtain ⟨c', hc', hcont'⟩ := hex
        cases hins : insChildren (insert f) acc it with
        | none =>
            have hfalse := insChildren_eq_none hins c' hc'
            rw [hcont'] at hfalse
            cases hfalse
        | some a2 =>
            obtain ⟨l, c, r, hacc, hcont, ha2⟩ := insChildren_eq_some hins
            subst hacc
            subst ha2
            exact ⟨insert f c it,
              List.mem_append_right _ (List.mem_cons_self _ _), ihS c it hcont⟩
      have foldMain : ∀ (P : ℚ → ℚ → Prop) (its : List Tile)
          (acc : List QNode) (u : Tile),
          (∀ x y, P x y → ∃ c ∈ acc, c.contains x y = true) →
          ((∃ c ∈ acc, Stored c u) ∨ (u ∈ its ∧ P u.x u.y)) →
          ∃ c ∈ its.foldl (fun acc it =>
              match insChildren (insert f) acc it with
              | some acc2 => acc2
              | none => acc) acc, Stored c u := by
        intro P its
        induction its with
        | nil =>
            intro acc u _ hdisj
            rcases hdisj with h | ⟨hmem, _⟩
            · simpa using h
            · cases hmem
        | cons it rest ih2 =>
            intro acc u hcov hdisj
            simp only [List.foldl_cons]
            refine ih2 _ u (fun x y hp => stepCover acc it x y (hcov x y hp)) ?_
            rcases hdisj with h | ⟨hmem, hP⟩
            · exact Or.inl (stepStored acc it u h)
            · rcases List.mem_cons.mp hmem with rfl | hmem'
              · exact Or.inl (stepPlace acc u (hcov u.x u.y hP))
              · exact Or.inr ⟨hmem', hP⟩
      constructor
      · intro n t u hst
        cases n with
        | node qx qy qw qh d mD mI items cs =>
            cases cs with
            | cons c0 cr =>
                simp only [insert, List.isEmpty_cons, Bool.not_false, if_true]
                cases hins : insChildren (insert f) (c0 :: cr) t with
                | some cs2 =>
                    simp only []
                    obtain ⟨l, c, r, hacc, hcont, ha2⟩ :=
                      insChildren_eq_some hins
                    cases hst with
                    | here hmem hcont0 => exact Stored.here hmem hcont0
                    | child hc hstc hcont0 =>
                        subst ha2
                        have hc' : _ ∈ children
                            (node qx qy qw qh d mD mI items (c0 :: cr)) := hc
                        rw [show children
                            (node qx qy qw qh d mD mI items (c0 :: cr)) =
                            c0 :: cr from rfl, hacc] at hc'
                        rcases List.mem_append.mp hc' with hl | hcr2
                        · exact Stored.child (List.mem_append_left _ hl)
                            hstc hcont0
                        · rcases List.mem_cons.mp hcr2 with rfl | hr
                          · exact Stored.child
                              (List.mem_append_right _ (List.mem_cons_self _ _))
                              (ihF _ t u hstc) hcont0
                          · exact Stored.child
                              (List.mem_append_right _
                                (List.mem_cons_of_mem _ hr)) hstc hcont0
                | none =>
                    simp only []
                    cases hst with
                    | here hmem hcont0 =>
                        exact Stored.here (List.mem_append_left _ hmem) hcont0
                    | child hc hstc hcont0 => exact Stored.child hc hstc hcont0
            | nil =>
                simp only [insert, List.isEmpty_nil, Bool.not_true, if_false]
                by_cases hsub : (items ++ [t]).length > mI ∧ d < mD
                · rw [if_pos hsub]
                  cases hst with
                  | here hmem hcont0 =>
                      have hfold := foldMain
                        (fun x y => (node qx qy qw qh d mD mI items
                          ([] : List QNode)).contains x y = true)
                        (items ++ [t]) (mkChildren qx qy qw qh d mD mI) u
                        (fun x y hp => mkChildren_cover hp)
                        (Or.inr ⟨List.mem_append_left _ hmem, hcont0⟩)
                      obtain ⟨c, hcmem, hcst⟩ := hfold
                      exact Stored.child hcmem hcst hcont0
                  | child hc _ _ => cases hc
                · rw [if_neg hsub]
                  cases hst with
                  | here hmem hcont0 =>
                      exact Stored.here (List.mem_append_left _ hmem) hcont0
                  | child hc _ _ => cases hc
      · intro n t hcont
        cases n with
        | node qx qy qw qh d mD mI items cs =>
            cases cs with
            | cons c0 cr =>
                simp only [insert, List.isEmpty_cons, Bool.not_false, if_true]
                cases hins : insChildren (insert f) (c0 :: cr) t with
                | some cs2 =>
                    simp only []
                    obtain ⟨l, c, r, hacc, hcont2, ha2⟩ :=
                      insChildren_eq_some hins
                    subst ha2
                    exact Stored.child
                      (List.mem_append_right _ (List.mem_cons_self _ _))
                      (ihS c t hcont2) hcont
                | none =>
                    simp only []
                    exact Stored.here
                      (List.mem_append_right _ (List.mem_singleton.mpr rfl))
                      hcont
            | nil =>
                simp only [insert, List.isEmpty_nil, Bool.not_true, if_false]
                by_cases hsub : (items ++ [t]).length > mI ∧ d < mD
                · rw [if_pos hsub]
                  have hfold := foldMain
                    (fun x y => (node qx qy qw qh d mD mI items
                      ([] : List QNode)).contains x y = true)
                    (items ++ [t]) (mkChildren qx qy qw qh d mD mI) t
                    (fun x y hp => mkChildren_cover hp)
                    (Or.inr ⟨List.mem_append_right _ (List.mem_singleton.mpr rfl),
                      hcont⟩)
                  obtain ⟨c, hcmem, hcst⟩ := hfold
                  exact Stored.child hcmem hcst hcont
                · rw [if_neg hsub]
                  exact Stored.here
                    (List.mem_append_right _ (List.mem_singleton.mpr rfl)) hcont

end QNode

namespace QNode

/-- A node whose bounds contain a point of the (closed) query rectangle
passes the pruning test. -/
theorem intersects_of_contains {n : QNode} {V : Rect} {x y : ℚ}
    (hc : n.contains x y = true)
    (hx1 : V.x - V.w / 2 ≤ x) (hx2 : x ≤ V.x + V.w / 2)
    (hy1 : V.y - V.h / 2 ≤ y) (hy2 : y ≤ V.y + V.h / 2) :
    n.intersects V = true := by
  cases n with
  | node qx qy qw qh d mD mI items cs =>
      simp only [contains, QNode.bx, QNode.cy, QNode.bw, QNode.bh,
        Bool.and_eq_true, decide_eq_true_eq] at hc
      obtain ⟨⟨⟨hcx1, hcx2⟩, hcy1⟩, hcy2⟩ := hc
      simp only [intersects, QNode.bx, QNode.cy, QNode.bw, QNode.bh,
        Bool.not_eq_true', Bool.or_eq_false_iff, decide_eq_false_iff_not,
        not_lt]
      refine ⟨⟨⟨by linarith, by linarith⟩, by linarith⟩, by linarith⟩

/-- A tile whose bounding square sits inside the query rectangle passes
the per-item test. -/
theorem itemIntersects_of_sub {t : Tile} {V : Rect} (hs : 0 ≤ t.size)
    (h1 : V.x - V.w / 2 ≤ t.x - t.size / 2)
    (h2 : t.x + t.size / 2 ≤ V.x + V.w / 2)
    (h3 : V.y - V.h / 2 ≤ t.y - t.size / 2)
    (h4 : t.y + t.size / 2 ≤ V.y + V.h / 2) :
    itemIntersectsRange t V = true := by
  simp only [itemIntersectsRange, Bool.not_eq_true', Bool.or_eq_false_iff,
    decide_eq_false_iff_not, not_lt]
  refine ⟨⟨⟨by linarith, by linarith⟩, by linarith⟩, by linarith⟩

/-- Completeness: every stored tile whose bounding square lies inside the
query rectangle is reported by `queryRange`. -/
theorem stored_mem_queryRange {n : QNode} {t : Tile} {V : Rect}
    (hst : Stored n t) (hs : 0 ≤ t.size)
    (h1 : V.x - V.w / 2 ≤ t.x - t.size / 2)
    (h2 : t.x + t.size / 2 ≤ V.x + V.w / 2)
    (h3 : V.y - V.h / 2 ≤ t.y - t.size / 2)
    (h4 : t.y + t.size / 2 ≤ V.y + V.h / 2) :
    t ∈ n.queryRange V := by
  have hx1 : V.x - V.w / 2 ≤ t.x := by linarith
  have hx2 : t.x ≤ V.x + V.w / 2 := by linarith
  have hy1 : V.y - V.h / 2 ≤ t.y := by linarith
  have hy2 : t.y ≤ V.y + V.h / 2 := by linarith
  induction hst with
  | @here n0 t0 hmem hcont =>
      cases n0 with
      | node qx qy qw qh d mD mI items cs =>
          rw [queryRange]
          rw [if_pos (intersects_of_contains hcont hx1 hx2 hy1 hy2)]
          apply List.mem_append_left
          exact List.mem_filter.mpr
            ⟨hmem, itemIntersects_of_sub hs h1 h2 h3 h4⟩
  | @child n0 c t0 hc hstc hcont ih =>
      cases n0 with
      | node qx qy qw qh d mD mI items cs =>
          rw [queryRange]
          rw [if_pos (intersects_of_contains hcont hx1 hx2 hy1 hy2)]
          apply List.mem_append_right
          rw [List.mem_flatten]
          exact ⟨queryRange c V,
            List.mem_map.mpr ⟨⟨c, hc⟩, List.mem_attach _ _, rfl⟩,
            ih hs h1 h2 h3 h4 hx1 hx2 hy1 hy2⟩

end QNode

namespace QNode

/-- Soundness: `queryRange` reports only tiles stored in the subtree. -/
theorem queryRange_memT {n : QNode} {V : Rect} {t : Tile}
    (h : t ∈ n.queryRange V) : MemT n t := by
  induction n, V using queryRange.induct with
  | case1 qx qy qw qh d mD mI items cs r hint ih =>
      rw [queryRange, if_pos hint] at h
      rcases List.mem_append.mp h with hitem | hflat
      · exact MemT.here (List.mem_filter.mp hitem).1
      · rw [List.mem_flatten] at hflat
        obtain ⟨l, hl, htl⟩ := hflat
        rw [List.mem_map] at hl
        obtain ⟨⟨c, hc⟩, _, rfl⟩ := hl
        exact MemT.child hc (ih ⟨c, hc⟩ htl)
  | case2 qx qy qw qh d mD mI items cs r hint =>
      rw [queryRange, if_neg hint] at h
      cases h

/-- Fresh subdivision children hold nothing. -/
theorem memT_empty {qx qy qw qh : ℚ} {d mD mI : ℕ} {u : Tile}
    (h : MemT (node qx qy qw qh d mD mI [] []) u) : False := by
  cases h with
  | here hmem => cases hmem
  | child hc _ => cases hc

/-- Everything stored after an insertion was stored before or is the
inserted tile. -/
theorem memT_insert {fuel : ℕ} :
    ∀ {n : QNode} {t u : Tile}, MemT (insert fuel n t) u → MemT n u ∨ u = t := by
  induction fuel with
  | zero =>
      intro n t u h
      cases n with
      | node qx qy qw qh d mD mI items cs =>
          cases h with
          | here hmem =>
              rcases List.mem_append.mp hmem with hi | hi
              · exact Or.inl (MemT.here hi)
              · exact Or.inr (List.mem_singleton.mp hi)
          | child hc hm => exact Or.inl (MemT.child hc hm)
  | succ f ih =>
      intro n t u h
      cases n with
      | node qx qy qw qh d mD mI items cs =>
          cases cs with
          | cons c0 cr =>
              simp only [insert, List.isEmpty_cons, Bool.not_false,
                if_true] at h
              cases hins : insChildren (insert f) (c0 :: cr) t with
              | some cs2 =>
                  rw [hins] at h
                  obtain ⟨l, c, r, hacc, hcont, ha2⟩ :=
                    insChildren_eq_some hins
                  cases h with
                  | here hmem => exact Or.inl (MemT.here hmem)
                  | child hc hm =>
                      rw [show children (node qx qy qw qh d mD mI items cs2) =
                        cs2 from rfl, ha2] at hc
                      rcases List.mem_append.mp hc with hl | hcr2
                      · refine Or.inl (MemT.child ?_ hm)
                        rw [show children
                          (node qx qy qw qh d mD mI items (c0 :: cr)) =
                          c0 :: cr from rfl, hacc]
                        exact List.mem_append_left _ hl
                      · rcases List.mem_cons.mp hcr2 with rfl | hr
                        · rcases ih hm with hmc | rfl
                          · refine Or.inl (MemT.child ?_ hmc)
                            rw [show children
                              (node qx qy qw qh d mD mI items (c0 :: cr)) =
                              c0 :: cr from rfl, hacc]
                            exact List.mem_append_right _
                              (List.mem_cons_self _ _)
                          · exact Or.inr rfl
                        · refine Or.inl (MemT.child ?_ hm)
                          rw [show children
                            (node qx qy qw qh d mD mI items (c0 :: cr)) =
                            c0 :: cr from rfl, hacc]
                          exact List.mem_append_right _
                            (List.mem_cons_of_mem _ hr)
              | none =>
                  rw [hins] at h
                  cases h with
                  | here hmem =>
                      rcases List.mem_append.mp hmem with hi | hi
                      · exact Or.inl (MemT.here hi)
                      · exact Or.inr (List.mem_singleton.mp hi)
                  | child hc hm => exact Or.inl (MemT.child hc hm)
          | nil =>
              simp only [insert, List.isEmpty_nil, Bool.not_true,
                if_false] at h
              by_cases hsub : (items ++ [t]).length > mI ∧ d < mD
              · rw [if_pos hsub] at h
                have foldBack : ∀ (its : List Tile) (acc : List QNode),
                    (∃ c ∈ its.foldl (fun acc it =>
                      match insChildren (insert f) acc it with
                      | some acc2 => acc2
                      | none => acc) acc, MemT c u) →
                    (∃ c ∈ acc, MemT c u) ∨ u ∈ its := by
                  intro its
                  induction its with
                  | nil => intro acc hx; exact Or.inl (by simpa using hx)
                  | cons it rest ih2 =>
                      intro acc hx
                      simp only [List.foldl_cons] at hx
                      rcases ih2 _ hx with hacc' | hrest
                      · cases hins : insChildren (insert f) acc it with
                        | none =>
                            rw [hins] at hacc'
                            exact Or.inl hacc'
                        | some a2 =>
                            rw [hins] at hacc'
                            obtain ⟨l, c, r, hacc, hcont, ha2⟩ :=
                              insChildren_eq_some hins
                            subst hacc
                            subst ha2
                            obtain ⟨c2, hc2, hmc2⟩ := hacc'
                            rcases List.mem_append.mp hc2 with hl | hcr2
                            · exact Or.inl ⟨c2, List.mem_append_left _ hl, hmc2⟩
                            · rcases List.mem_cons.mp hcr2 with rfl | hr
                              · rcases ih hmc2 with hmc | rfl
                                · exact Or.inl ⟨c,
                                    List.mem_append_right _
                                      (List.mem_cons_self _ _), hmc⟩
                                · exact Or.inr (List.mem_cons_self _ _)
                              · exact Or.inl ⟨c2,
                                  List.mem_append_right _
                                    (List.mem_cons_of_mem _ hr), hmc2⟩
                      · exact Or.inr (List.mem_cons_of_mem _ hrest)
                cases h with
                | here hmem => cases hmem
                | child hc hm =>
                    rcases foldBack (items ++ [t]) _ ⟨_, hc, hm⟩ with
                      ⟨c2, hc2, hmc2⟩ | hin
                    · -- a fresh child holds nothing
                      exfalso
                      simp only [mkChildren, List.mem_cons,
                        List.not_mem_nil, or_false] at hc2
                      rcases hc2 with rfl | rfl | rfl | rfl <;>
                        exact memT_empty hmc2
                    · rcases List.mem_append.mp hin with hi | hi
                      · exact Or.inl (MemT.here hi)
                      · exact Or.inr (List.mem_singleton.mp hi)
              · rw [if_neg hsub] at h
                cases h with
                | here hmem =>
                    rcases List.mem_append.mp hmem with hi | hi
                    · exact Or.inl (MemT.here hi)
                    · exact Or.inr (List.mem_singleton.mp hi)
                | child hc hm => exact Or.inl (MemT.child hc hm)

end QNode

/-- Matching bounds give the same containment test. -/
theorem QNode.contains_congr {m n : QNode} (he : m.boundsOf = n.boundsOf)
    (x y : ℚ) : m.contains x y = n.contains x y := by
  cases m with
  | node qx qy qw qh d mD mI items cs =>
      cases n with
      | node qx0 qy0 qw0 qh0 d0 mD0 mI0 items0 cs0 =>
          simp only [QNode.boundsOf, QNode.bx, QNode.cy, QNode.bw, QNode.bh,
            Prod.mk.injEq] at he
          obtain ⟨e1, e2, e3, e4⟩ := he
          simp only [QNode.contains, QNode.bx, QNode.cy, QNode.bw, QNode.bh,
            e1, e2, e3, e4]

/-- Folding insertions never changes the root bounds. -/
theorem foldl_insert_boundsOf (l : List Tile) (n : QNode) :
    (l.foldl (fun n t => QNode.insert 10 n t) n).boundsOf = n.boundsOf := by
  induction l generalizing n with
  | nil => rfl
  | cons a rest ih =>
      simp only [List.foldl_cons]
      rw [ih, QNode.insert_boundsOf]

/-- Folding insertions preserves every stored tile. -/
theorem foldl_insert_stored (l : List Tile) (n : QNode) (u : Tile)
    (hu : Stored n u) :
    Stored (l.foldl (fun n t => QNode.insert 10 n t) n) u := by
  induction l generalizing n with
  | nil => exact hu
  | cons a rest ih =>
      simp only [List.foldl_cons]
      exact ih _ ((QNode.insert_stored 10).1 _ _ _ hu)

/-- Every inserted tile whose centre lies in the root's half-open bounds
is stored in the built tree. -/
theorem build_stored (w h : ℚ) (tiles : List Tile) (t : Tile)
    (hmem : t ∈ tiles)
    (hcont : (QNode.node 0 0 w h 0 8 10 [] []).contains t.x t.y = true) :
    Stored (QuadTree.build w h tiles) t := by
  obtain ⟨l1, l2, rfl⟩ := List.append_of_mem hmem
  rw [QuadTree.build, List.foldl_append, List.foldl_cons]
  have hcont1 : (l1.foldl (fun n t => QNode.insert 10 n t)
      (QNode.node 0 0 w h 0 8 10 [] [])).contains t.x t.y = true := by
    rw [QNode.contains_congr (foldl_insert_boundsOf l1 _)]
    exact hcont
  exact foldl_insert_stored l2 _ t ((QNode.insert_stored 10).2 _ t hcont1)

/-- Everything stored in the built tree was inserted. -/
theorem build_memT (w h : ℚ) (tiles : List Tile) (t : Tile)
    (hm : MemT (QuadTree.build w h tiles) t) : t ∈ tiles := by
  have aux : ∀ (l : List Tile) (n : QNode),
      MemT (l.foldl (fun n t => QNode.insert 10 n t) n) t →
      MemT n t ∨ t ∈ l := by
    intro l
    induction l with
    | nil => intro n hn; exact Or.inl hn
    | cons a rest ih =>
        intro n hn
        simp only [List.foldl_cons] at hn
        rcases ih _ hn with hn2 | hl
        · rcases QNode.memT_insert hn2 with hn3 | rfl
          · exact Or.inl hn3
          · exact Or.inr (List.mem_cons_self _ _)
        · exact Or.inr (List.mem_cons_of_mem _ hl)
  rcases aux tiles _ hm with hroot | hmem
  · exact absurd hroot QNode.memT_empty
  · exact hmem

/-- Everything `queryRange` reports on the built tree was inserted. -/
theorem build_queryRange_sub (w h : ℚ) (tiles : List Tile) (V : Rect)
    (t : Tile) (ht : t ∈ (QuadTree.build w h tiles).queryRange V) :
    t ∈ tiles :=
  build_memT w h tiles t (QNode.queryRange_memT ht)

/-- C3 counterexample — the round trip fails for a tile whose centre lies
outside the root bounds: the tile `(100, 0)` inserted into a
`QuadTree(10, 10)` is stored at the root, but `queryRange` prunes by the
root bounds, so the rectangle around the tile (which contains its
bounding square) returns nothing. -/
theorem quadtree_roundTrip_cex :
    ((⟨100, 0, 2, 2⟩ : Rect).x - (⟨100, 0, 2, 2⟩ : Rect).w / 2 ≤
        (⟨100, 0, 1, [1, 1, 1, 1], 5⟩ : Tile).x -
          (⟨100, 0, 1, [1, 1, 1, 1], 5⟩ : Tile).size / 2) ∧
    ((⟨100, 0, 1, [1, 1, 1, 1], 5⟩ : Tile).x +
        (⟨100, 0, 1, [1, 1, 1, 1], 5⟩ : Tile).size / 2 ≤
        (⟨100, 0, 2, 2⟩ : Rect).x + (⟨100, 0, 2, 2⟩ : Rect).w / 2) ∧
    ((⟨100, 0, 2, 2⟩ : Rect).y - (⟨100, 0, 2, 2⟩ : Rect).h / 2 ≤
        (⟨100, 0, 1, [1, 1, 1, 1], 5⟩ : Tile).y -
          (⟨100, 0, 1, [1, 1, 1, 1], 5⟩ : Tile).size / 2) ∧
    ((⟨100, 0, 1, [1, 1, 1, 1], 5⟩ : Tile).y +
        (⟨100, 0, 1, [1, 1, 1, 1], 5⟩ : Tile).size / 2 ≤
        (⟨100, 0, 2, 2⟩ : Rect).y + (⟨100, 0, 2, 2⟩ : Rect).h / 2) ∧
    (⟨100, 0, 1, [1, 1, 1, 1], 5⟩ : Tile) ∉
      (QuadTree.build 10 10 [⟨100, 0, 1, [1, 1, 1, 1], 5⟩]).queryRange
        ⟨100, 0, 2, 2⟩ := by
  refine ⟨by with_unfolding_all decide, by with_unfolding_all decide,
    by with_unfolding_all decide, by with_unfolding_all decide, ?_⟩
  have hb : QuadTree.build 10 10 [⟨100, 0, 1, [1, 1, 1, 1], 5⟩] =
      QNode.node 0 0 10 10 0 8 10 [⟨100, 0, 1, [1, 1, 1, 1], 5⟩] [] := by
    with_unfolding_all rfl
  rw [hb, QNode.queryRange,
    if_neg (by with_unfolding_all decide :
      ¬((QNode.node 0 0 10 10 0 8 10 [⟨100, 0, 1, [1, 1, 1, 1], 5⟩]
        []).intersects ⟨100, 0, 2, 2⟩ = true))]
  exact List.not_mem_nil _

/-- C3 amended — quadtree round trip for in-bounds tiles: if a tile's
centre lies in the root's half-open bounds, its side is nonnegative, and
the query rectangle contains its bounding square, then `queryRange`
reports it.  (A tile whose centre lies outside the root bounds can be
accepted into the root bucket yet missed, as the counterexample shows.) -/
theorem quadtree_roundTrip (w h : ℚ) (tiles : List Tile) (t : Tile)
    (V : Rect) (hmem : t ∈ tiles)
    (hcont : (QNode.node 0 0 w h 0 8 10 [] []).contains t.x t.y = true)
    (hs : 0 ≤ t.size)
    (h1 : V.x - V.w / 2 ≤ t.x - t.size / 2)
    (h2 : t.x + t.size / 2 ≤ V.x + V.w / 2)
    (h3 : V.y - V.h / 2 ≤ t.y - t.size / 2)
    (h4 : t.y + t.size / 2 ≤ V.y + V.h / 2) :
    t ∈ (QuadTree.build w h tiles).queryRange V :=
  QNode.stored_mem_queryRange (build_stored w h tiles t hmem hcont)
    hs h1 h2 h3 h4

/-- C3 witness: the tile at `(1, 1)` in a `QuadTree(10, 10)` is returned
for the enclosing query rectangle. -/
theorem quadtree_roundTrip_sample :
    (⟨1, 1, 1, [1, 1, 1, 1], 5⟩ : Tile) ∈
      (QuadTree.build 10 10 [⟨1, 1, 1, [1, 1, 1, 1], 5⟩]).queryRange
        ⟨0, 0, 20, 20⟩ :=
  quadtree_roundTrip 10 10 _ _ _ (by with_unfolding_all decide)
    (by with_unfolding_all decide) (by with_unfolding_all decide)
    (by with_unfolding_all decide) (by with_unfolding_all decide)
    (by with_unfolding_all decide) (by with_unfolding_all decide)

/-- C10 — `TileManager.initialize`: when at most 300000 blocks were
generated, all of them are inserted into the quadtree; otherwise block
`i` is kept exactly when its uniform draw falls below
`300000 / blocks.length`.  Whatever was sampled, `queryRange` can only
ever report sampled blocks, each sampled block is a generated block, and
the finest pyramid level `tilesByLevel[5]` holds every generated block
regardless of sampling. -/
theorem initialize_sampling (draws : ℕ → ℚ) (blocks : List Tile)
    (radius : ℚ) (V : Rect) :
    (blocks.length ≤ 300000 →
      TileManager.sampleBlocks draws blocks = blocks) ∧
    (¬blocks.length ≤ 300000 →
      TileManager.sampleBlocks draws blocks =
        blocks.enum.filterMap fun p =>
          if draws p.1 < (300000 : ℚ) / (blocks.length : ℚ) then some p.2
          else none) ∧
    (∀ t ∈ (TileManager.initQuadTree radius draws blocks).queryRange V,
      t ∈ TileManager.sampleBlocks draws blocks) ∧
    (∀ t ∈ TileManager.sampleBlocks draws blocks, t ∈ blocks) ∧
    TileManager.tilesByLevel blocks 5 = blocks := by
  refine ⟨fun h => by rw [TileManager.sampleBlocks, if_pos h],
    fun h => by rw [TileManager.sampleBlocks, if_neg h], ?_, ?_, rfl⟩
  · intro t ht
    exact build_queryRange_sub _ _ _ _ t ht
  · intro t ht
    rw [TileManager.sampleBlocks] at ht
    split_ifs at ht with h
    · exact ht
    · rw [List.mem_filterMap] at ht
      obtain ⟨p, hp, hsome⟩ := ht
      split_ifs at hsome with h2
      exact (Option.some_inj.mp hsome) ▸ List.snd_mem_of_mem_enum hp

/-- C10 witness: a single generated block is not sampled away, and is the
whole finest pyramid level. -/
theorem initialize_sampling_sample :
    TileManager.sampleBlocks (fun _ => 0) [⟨1/2, 1/2, 1, [1, 1, 1, 1], 5⟩] =
      [⟨1/2, 1/2, 1, [1, 1, 1, 1], 5⟩] :=
  (initialize_sampling (fun _ => 0) [⟨1/2, 1/2, 1, [1, 1, 1, 1], 5⟩] 1
    ⟨0, 0, 1, 1⟩).1 (by decide)

namespace TileManager

/-- Coordinates in the same cell at side `s` are in the same cell at side
`2s`. -/
theorem floor_double_congr {s x y : ℚ} (hs : 0 < s)
    (h : ⌊x / s⌋ = ⌊y / s⌋) : ⌊x / (2 * s)⌋ = ⌊y / (2 * s)⌋ := by
  have key : ∀ z : ℚ, ⌊z / (2 * s)⌋ = ⌊(⌊z / s⌋ : ℚ) / 2⌋ := by
    intro z
    have h1 : (⌊z / s⌋ : ℚ) ≤ z / s := Int.floor_le _
    have h2 : z / s < ⌊z / s⌋ + 1 := Int.lt_floor_add_one _
    have hz : z / (2 * s) = z / s / 2 := by
      rw [div_div]
      ring_nf
    rcases Int.even_or_odd ⌊z / s⌋ with ⟨j, hj⟩ | ⟨j, hj⟩
    · rw [hz, hj]
      have hj1 : ((j + j : ℤ) : ℚ) = 2 * (j : ℚ) := by push_cast; ring
      rw [hj1]
      rw [show (2 : ℚ) * (j : ℚ) / 2 = (j : ℚ) by ring, Int.floor_intCast]
      apply Int.floor_eq_iff.mpr
      constructor
      · rw [hj, hj1] at h1
        rw [le_div_iff₀ (by norm_num : (0:ℚ) < 2)]
        linarith
      · rw [hj, hj1] at h2
        rw [div_lt_iff₀ (by norm_num : (0:ℚ) < 2)]
        push_cast
        linarith
    · rw [hz, hj]
      have hj1 : ((2 * j + 1 : ℤ) : ℚ) = 2 * (j : ℚ) + 1 := by push_cast; ring
      rw [hj1]
      have hfl : ⌊(2 * (j : ℚ) + 1) / 2⌋ = j := by
        apply Int.floor_eq_iff.mpr
        constructor
        · rw [le_div_iff₀ (by norm_num : (0:ℚ) < 2)]
          push_cast
          linarith
        · rw [div_lt_iff₀ (by norm_num : (0:ℚ) < 2)]
          push_cast
          linarith
      rw [hfl]
      apply Int.floor_eq_iff.mpr
      constructor
      · rw [hj, hj1] at h1
        rw [le_div_iff₀ (by norm_num : (0:ℚ) < 2)]
        linarith
      · rw [hj, hj1] at h2
        rw [div_lt_iff₀ (by norm_num : (0:ℚ) < 2)]
        push_cast
        linarith
  rw [key x, key y, h]

theorem tileSizeAt_pos (level : ℕ) : 0 < tileSizeAt level := by
  rw [tileSizeAt]
  positivity

/-- Below the leaf level the tile side doubles. -/
theorem tileSizeAt_succ {level : ℕ} (h : level < 5) :
    tileSizeAt level = 2 * tileSizeAt (level + 1) := by
  rw [tileSizeAt, tileSizeAt]
  have h1 : 5 - level = (5 - (level + 1)) + 1 := by omega
  rw [h1, pow_succ]
  ring

/-- The merged-tile centre `(g + 0.5)·s` lies in cell `g`. -/
theorem floor_center {s : ℚ} (hs : 0 < s) (g : ℤ) :
    ⌊((g : ℚ) + 1/2) * s / s⌋ = g := by
  rw [mul_div_assoc, div_self (ne_of_gt hs), mul_one]
  apply Int.floor_eq_iff.mpr
  constructor
  · linarith
  · push_cast
    linarith

/-- Every grouped tile's cell key appears in the merge grid. -/
theorem buildGrid_key_mem (s : ℚ) (ts : List Tile) :
    ∀ t ∈ ts, ∃ kc ∈ buildGrid s ts, kc.1 = (⌊t.x / s⌋, ⌊t.y / s⌋) := by
  have hupd_new : ∀ (g : List ((ℤ × ℤ) × Cell)) (key : ℤ × ℤ) (t : Tile),
      ∃ kc ∈ updateGrid s g key t, kc.1 = key := by
    intro g key t
    induction g with
    | nil => exact ⟨_, List.mem_singleton.mpr rfl, rfl⟩
    | cons kc0 rest ih =>
        obtain ⟨k0, c0⟩ := kc0
        by_cases hk : k0 = key
        · rw [updateGrid, if_pos hk]
          exact ⟨_, List.mem_cons_self _ _, hk⟩
        · obtain ⟨kc, hkc, hkey⟩ := ih
          refine ⟨kc, ?_, hkey⟩
          rw [updateGrid, if_neg hk]
          exact List.mem_cons_of_mem _ hkc
  have hupd_keep : ∀ (g : List ((ℤ × ℤ) × Cell)) (key k : ℤ × ℤ) (t : Tile),
      (∃ kc ∈ g, kc.1 = k) → ∃ kc ∈ updateGrid s g key t, kc.1 = k := by
    intro g key k t hex
    induction g with
    | nil => obtain ⟨kc, hkc, _⟩ := hex; cases hkc
    | cons kc0 rest ih =>
        obtain ⟨k0, c0⟩ := kc0
        obtain ⟨kc, hkc, hkey⟩ := hex
        by_cases hk : k0 = key
        · rcases List.mem_cons.mp hkc with rfl | hr
          · rw [updateGrid, if_pos hk]
            exact ⟨_, List.mem_cons_self _ _, hkey⟩
          · refine ⟨kc, ?_, hkey⟩
            rw [updateGrid, if_pos hk]
            exact List.mem_cons_of_mem _ hr
        · rcases List.mem_cons.mp hkc with rfl | hr
          · refine ⟨(k0, c0), ?_, hkey⟩
            rw [updateGrid, if_neg hk]
            exact List.mem_cons_self _ _
          · obtain ⟨kc2, hkc2, hkey2⟩ := ih ⟨kc, hr, hkey⟩
            refine ⟨kc2, ?_, hkey2⟩
            rw [updateGrid, if_neg hk]
            exact List.mem_cons_of_mem _ hkc2
  have aux : ∀ (rest : List Tile) (g : List ((ℤ × ℤ) × Cell)) (k : ℤ × ℤ),
      ((∃ kc ∈ g, kc.1 = k) ∨ (∃ t ∈ rest, (⌊t.x / s⌋, ⌊t.y / s⌋) = k)) →
      ∃ kc ∈ rest.foldl
        (fun grid t => updateGrid s grid (⌊t.x / s⌋, ⌊t.y / s⌋) t) g,
        kc.1 = k := by
    intro rest
    induction rest with
    | nil =>
        intro g k hdisj
        rcases hdisj with h | ⟨t, ht, _⟩
        · simpa using h
        · cases ht
    | cons t0 rest2 ih =>
        intro g k hdisj
        simp only [List.foldl_cons]
        apply ih
        rcases hdisj with h | ⟨t, ht, hk⟩
        · exact Or.inl (hupd_keep _ _ _ _ h)
        · rcases List.mem_cons.mp ht with rfl | hr
          · exact Or.inl (hk ▸ hupd_new _ _ t)
          · exact Or.inr ⟨t, hr, hk⟩
  intro t ht
  exact aux ts [] _ (Or.inr ⟨t, ht, rfl⟩)

/-- Merge-step completeness: every input tile's cell is represented by a
merged tile at the same cell, carrying the level tag. -/
theorem mergeStep_complete {s : ℚ} (hs : 0 < s) (level : ℕ)
    (ts : List Tile) :
    ∀ t ∈ ts, ∃ m ∈ mergeStep s level ts,
      ⌊m.x / s⌋ = ⌊t.x / s⌋ ∧ ⌊m.y / s⌋ = ⌊t.y / s⌋ ∧ m.level = level := by
  intro t ht
  obtain ⟨kc, hkc, hkey⟩ := buildGrid_key_mem s ts t ht
  have hpos := buildGrid_cell_pos s ts kc hkc
  obtain ⟨hx, hy, _, _, _⟩ := buildGrid_cell_spec s ts kc hkc
  refine ⟨mergeCell s level kc.2, ?_, ?_, ?_, rfl⟩
  · rw [mergeStep]
    exact List.mem_filterMap.mpr ⟨kc, hkc, by rw [if_pos hpos]⟩
  · show ⌊(mergeCell s level kc.2).x / s⌋ = _
    rw [show (mergeCell s level kc.2).x = kc.2.x from rfl, hx, hkey,
      floor_center hs]
  · show ⌊(mergeCell s level kc.2).y / s⌋ = _
    rw [show (mergeCell s level kc.2).y = kc.2.y from rfl, hy, hkey,
      floor_center hs]

end TileManager

namespace TileManager

/-- Every tile of a built pyramid level below the leaves carries that
level's tag; the leaf level keeps the generator's tag. -/
theorem tilesByLevel_level_tag (blocks : List Tile)
    (hlv : ∀ t ∈ blocks, t.level = 5) (level : ℕ) (hle : level ≤ 5) :
    ∀ u ∈ tilesByLevel blocks level, u.level = level := by
  rcases eq_or_lt_of_le hle with rfl | hlt
  · exact hlv
  · intro u hu
    rw [tilesByLevel_succ blocks level hlt] at hu
    obtain ⟨kc, _, rfl⟩ := mem_mergeStep hu
    rfl

/-- Pyramid completeness: for every leaf block and every level `≤ 5`,
some tile of that level occupies the block's cell. -/
theorem tilesByLevel_complete (blocks : List Tile) (t : Tile)
    (ht : t ∈ blocks) :
    ∀ k : ℕ, k ≤ 5 → ∃ u ∈ tilesByLevel blocks (5 - k),
      ⌊u.x / tileSizeAt (5 - k)⌋ = ⌊t.x / tileSizeAt (5 - k)⌋ ∧
      ⌊u.y / tileSizeAt (5 - k)⌋ = ⌊t.y / tileSizeAt (5 - k)⌋ := by
  intro k
  induction k with
  | zero =>
      intro _
      exact ⟨t, by rw [tilesByLevel]; exact ht, rfl, rfl⟩
  | succ k ih =>
      intro hk5
      have hk : k ≤ 5 := by omega
      obtain ⟨u1, hu1, hx1, hy1⟩ := ih hk
      have hlev : 5 - (k + 1) < 5 := by omega
      have hsucc : 5 - (k + 1) + 1 = 5 - k := by omega
      have hdouble := tileSizeAt_succ hlev
      rw [hsucc] at hdouble
      obtain ⟨m, hm, hmx, hmy, _⟩ :=
        mergeStep_complete (tileSizeAt_pos (5 - (k + 1))) (5 - (k + 1))
          (tilesByLevel blocks (5 - k)) u1 hu1
      refine ⟨m, ?_, ?_, ?_⟩
      · rw [tilesByLevel_succ blocks _ hlev, hsucc]
        exact hm
      · rw [hmx, hdouble]
        exact floor_double_congr (tileSizeAt_pos (5 - k)) hx1
      · rw [hmy, hdouble]
        exact floor_double_congr (tileSizeAt_pos (5 - k)) hy1

/-- The `tilesByLevel` array lookup. -/
theorem buildLODTiles_getD (blocks : List Tile) (level : ℕ) (h : level < 6) :
    (buildLODTiles blocks).getD level [] = tilesByLevel blocks level := by
  rw [buildLODTiles, List.getD_eq_getElem?_getD, List.getElem?_map,
    List.getElem?_range h]
  rfl

/-- `findLOD` succeeds whenever some tile of the level occupies the
requested cell, and any found tile lies in the level at exactly that
cell. -/
theorem findLOD_spec (tbl : List (List Tile)) (level : ℕ) (gx gy : ℤ) :
    (∀ u, findLOD tbl level gx gy = some u →
      u ∈ tbl.getD level [] ∧ ⌊u.x / tileSizeAt level⌋ = gx ∧
        ⌊u.y / tileSizeAt level⌋ = gy) ∧
    ((∃ u ∈ tbl.getD level [], ⌊u.x / tileSizeAt level⌋ = gx ∧
        ⌊u.y / tileSizeAt level⌋ = gy) →
      ∃ u, findLOD tbl level gx gy = some u) := by
  constructor
  · intro u hu
    have hmem := List.mem_of_find?_eq_some hu
    have hp := List.find?_some hu
    simp only [Bool.and_eq_true, decide_eq_true_eq] at hp
    exact ⟨hmem, hp.1, hp.2⟩
  · intro ⟨u, hu, hx, hy⟩
    have : (findLOD tbl level gx gy).isSome := by
      rw [findLOD, List.find?_isSome]
      exact ⟨u, hu, by simp [hx, hy]⟩
    exact Option.isSome_iff_exists.mp this

end TileManager

namespace TileManager

/-- Sampling only ever keeps generated blocks. -/
theorem sampleBlocks_sub (draws : ℕ → ℚ) (blocks : List Tile) :
    ∀ t ∈ sampleBlocks draws blocks, t ∈ blocks := by
  intro t ht
  rw [sampleBlocks] at ht
  split_ifs at ht with h
  · exact ht
  · rw [List.mem_filterMap] at ht
    obtain ⟨p, hp, hsome⟩ := ht
    split_ifs at hsome with h2
    exact (Option.some_inj.mp hsome) ▸ List.snd_mem_of_mem_enum hp

/-- A candidate whose cell key is already processed is skipped. -/
theorem applyLODStep_skip {tbl : List (List Tile)} {baseLevel : ℕ}
    {drop : Tile → ℕ} {st : LODState} {tile : Tile}
    (h : ((baseLevel - drop tile : ℕ),
      ⌊tile.x / tileSizeAt (baseLevel - drop tile)⌋,
      ⌊tile.y / tileSizeAt (baseLevel - drop tile)⌋) ∈ st.processed) :
    applyLODStep tbl baseLevel drop st tile = st := by
  simp only [applyLODStep]
  rw [if_pos h]

/-- A fresh candidate whose cell has a merged tile emits exactly that
tile and marks the key. -/
theorem applyLODStep_found {tbl : List (List Tile)} {baseLevel : ℕ}
    {drop : Tile → ℕ} {st : LODState} {tile u : Tile}
    (h : ((baseLevel - drop tile : ℕ),
      ⌊tile.x / tileSizeAt (baseLevel - drop tile)⌋,
      ⌊tile.y / tileSizeAt (baseLevel - drop tile)⌋) ∉ st.processed)
    (hfind : findLOD tbl (baseLevel - drop tile)
      ⌊tile.x / tileSizeAt (baseLevel - drop tile)⌋
      ⌊tile.y / tileSizeAt (baseLevel - drop tile)⌋ = some u) :
    applyLODStep tbl baseLevel drop st tile =
      { processed := ((baseLevel - drop tile : ℕ),
          ⌊tile.x / tileSizeAt (baseLevel - drop tile)⌋,
          ⌊tile.y / tileSizeAt (baseLevel - drop tile)⌋) :: st.processed,
        result := st.result ++ [u] } := by
  simp only [applyLODStep]
  rw [if_neg h, hfind]

end TileManager

namespace TileManager

/-- The selector's fold invariant: on a pyramid built from the generated
blocks, with candidates drawn from the blocks and a base level `≤ 5`,
every candidate's cell has a merged tile (so the upward-search and
fallback branches never run), each emission's key equals the candidate's
freshly marked key, and the emitted keys stay pairwise distinct. -/
theorem applyLOD_fold_invariant (blocks : List Tile)
    (hlv : ∀ t ∈ blocks, t.level = 5) (drop : Tile → ℕ) (baseLevel : ℕ)
    (hbase : baseLevel ≤ 5) :
    ∀ (cands : List Tile) (st : LODState),
      (∀ t ∈ cands, t ∈ blocks) →
      List.Pairwise (fun a b => tileKey a ≠ tileKey b) st.result →
      (∀ r ∈ st.result, tileKey r ∈ st.processed) →
      List.Pairwise (fun a b => tileKey a ≠ tileKey b)
        ((cands.foldl (applyLODStep (buildLODTiles blocks) baseLevel drop)
          st).result) ∧
      (∀ r ∈ (cands.foldl (applyLODStep (buildLODTiles blocks) baseLevel drop)
          st).result,
        tileKey r ∈ (cands.foldl
          (applyLODStep (buildLODTiles blocks) baseLevel drop) st).processed) := by
  intro cands
  induction cands with
  | nil => intro st _ h1 h2; exact ⟨h1, h2⟩
  | cons tile rest ih =>
      intro st hc h1 h2
      simp only [List.foldl_cons]
      have htB : tile ∈ blocks := hc tile (List.mem_cons_self _ _)
      have hrest : ∀ t ∈ rest, t ∈ blocks :=
        fun t ht => hc t (List.mem_cons_of_mem _ ht)
      by_cases hkey : ((baseLevel - drop tile : ℕ),
          ⌊tile.x / tileSizeAt (baseLevel - drop tile)⌋,
          ⌊tile.y / tileSizeAt (baseLevel - drop tile)⌋) ∈ st.processed
      · rw [applyLODStep_skip hkey]
        exact ih st hrest h1 h2
      · have hle : baseLevel - drop tile ≤ 5 :=
          le_trans (Nat.sub_le _ _) hbase
        have hkk : 5 - (5 - (baseLevel - drop tile)) = baseLevel - drop tile := by
          omega
        obtain ⟨u1, hu1, hx1, hy1⟩ := by
          have h0 := tilesByLevel_complete blocks tile htB
            (5 - (baseLevel - drop tile)) (by omega)
          rw [hkk] at h0
          exact h0
        obtain ⟨u, hfind⟩ :=
          (findLOD_spec (buildLODTiles blocks) (baseLevel - drop tile) _ _).2
            ⟨u1, by
              rw [buildLODTiles_getD _ _ (by omega)]
              exact hu1, hx1, hy1⟩
        obtain ⟨humem, hux, huy⟩ :=
          (findLOD_spec (buildLODTiles blocks) (baseLevel - drop tile) _ _).1
            u hfind
        rw [buildLODTiles_getD _ _ (by omega)] at humem
        have hulev : u.level = baseLevel - drop tile :=
          tilesByLevel_level_tag blocks hlv _ hle u humem
        have hukey : tileKey u = ((baseLevel - drop tile : ℕ),
            ⌊tile.x / tileSizeAt (baseLevel - drop tile)⌋,
            ⌊tile.y / tileSizeAt (baseLevel - drop tile)⌋) := by
          rw [tileKey, hulev, hux, huy]
        rw [applyLODStep_found hkey hfind]
        apply ih
        · exact hrest
        · show List.Pairwise _ (st.result ++ [u])
          rw [List.pairwise_append]
          refine ⟨h1, List.pairwise_singleton _ _, ?_⟩
          intro a ha b hb
          rw [List.mem_singleton] at hb
          subst hb
          rw [hukey]
          intro hcontra
          exact hkey (hcontra ▸ h2 a ha)
        · show ∀ r ∈ st.result ++ [u], tileKey r ∈ _ :: st.processed
          intro r hr
          rcases List.mem_append.mp hr with hr | hr
          · exact List.mem_cons_of_mem _ (h2 r hr)
          · rw [List.mem_singleton] at hr
            subst hr
            rw [hukey]
            exact List.mem_cons_self _ _

end TileManager

/-- Every generated block is a leaf, tagged with level 5. -/
theorem CircleGrid.generate_level (radius blockSize : ℚ)
    (bad : ℕ → ℕ → Bool) : ∀ t ∈ CircleGrid.generate radius blockSize bad,
    t.level = 5 := by
  intro t ht
  obtain ⟨iy, ix, _, _, _, rfl⟩ := CircleGrid.mem_generate ht
  rfl

/-- C1 — selector deduplication, over the whole frame pipeline: generate
the blocks, sample them into the quadtree, query the viewport rectangle,
and run `applyLOD` with any distance-drop function and any base level
`≤ 5` (the zoom-derived base level always is).  No two emitted tiles
share the deduplication key `(level, ⌊x/s_level⌋, ⌊y/s_level⌋)` taken at
the emitted tile's own level. -/
theorem applyLOD_no_duplicate_keys (radius blockSize : ℚ)
    (bad : ℕ → ℕ → Bool) (draws : ℕ → ℚ) (V : Rect) (drop : Tile → ℕ)
    (baseLevel : ℕ) (hbase : baseLevel ≤ 5) :
    List.Pairwise (fun a b => TileManager.tileKey a ≠ TileManager.tileKey b)
      (TileManager.applyLOD
        (TileManager.buildLODTiles (CircleGrid.generate radius blockSize bad))
        drop baseLevel
        ((TileManager.initQuadTree radius draws
          (CircleGrid.generate radius blockSize bad)).queryRange V)) := by
  rw [TileManager.applyLOD]
  refine (TileManager.applyLOD_fold_invariant
    (CircleGrid.generate radius blockSize bad)
    (CircleGrid.generate_level radius blockSize bad) drop baseLevel hbase
    _ ⟨[], []⟩ ?_ (List.Pairwise.nil) (by intro r hr; cases hr)).1
  intro t ht
  rw [TileManager.initQuadTree] at ht
  exact TileManager.sampleBlocks_sub draws _ t
    (build_queryRange_sub _ _ _ _ t ht)

/-- C1 witness: the radius-1 grid, full pipeline, base level 0. -/
theorem applyLOD_no_duplicate_keys_sample :
    List.Pairwise (fun a b => TileManager.tileKey a ≠ TileManager.tileKey b)
      (TileManager.applyLOD
        (TileManager.buildLODTiles
          (CircleGrid.generate 1 1 (fun _ _ => false)))
        (fun _ => 0) 0
        ((TileManager.initQuadTree 1 (fun _ => 0)
          (CircleGrid.generate 1 1 (fun _ _ => false))).queryRange
            ⟨0, 0, 4, 4⟩)) :=
  applyLOD_no_duplicate_keys 1 1 (fun _ _ => false) (fun _ => 0)
    ⟨0, 0, 4, 4⟩ (fun _ => 0) 0 (by decide)
